import Mathlib

/-!
Shallow embedding of the job scheduler in src/the-void-jobs/src/scheduler.ts
(class JobScheduler) together with proofs about its claims.

Modelling conventions:
* JS Map objects (insertion-ordered, key-unique) are modelled as association
  lists (List (String × _)) with JS Map semantics: get finds the first entry,
  set overwrites in place or appends, delete erases the entry.
* JS Set objects are insertion-ordered duplicate-free lists.
* A job's execute() is opaque asynchronous code; its observable behaviour in
  one round is an oracle (outcome : String → Option String) giving none on
  success and some errorMessage when it throws, together with a duration
  oracle (dur : String → Nat) for the measured wall-clock time.
* node-cron is external to the repository; cron.validate is abstracted as a
  parameter (cronValid : String → Bool) and a scheduled task is represented
  by its key in the scheduledTasks map.
* The JS recursion in the DFS cycle detector and the while-loop of Kahn's
  algorithm are modelled with an explicit fuel argument; the fuel values
  used are proved sufficient, so no fuel exhaustion is ever reached.
-/

namespace TheVoid

/-- A named unit of work with optional declared dependencies
(src/the-void-jobs/src/types/job.ts, interface Job).  The absent
dependencies field of the TypeScript interface is modelled as []. -/
structure Job where
  name : String
  description : Option String := none
  dependencies : List String := []
deriving Repr, DecidableEq

/-- Per-job result of one execution round
(src/the-void-jobs/src/types/job.ts, interface JobResult). -/
structure JobResult where
  success : Bool
  message : Option String := none
  error : Option String := none
  executionTime : Nat := 0
  jobName : Option String := none
  dependenciesMet : Option Bool := none
  skippedReason : Option String := none
deriving Repr, DecidableEq

/-- JS Map.get: value of the first entry with the given key. -/
def mapGet {α : Type} : List (String × α) → String → Option α
  | [], _ => none
  | (k₁, v) :: rest, k => if k₁ = k then some v else mapGet rest k

/-- JS Map.set: overwrite the entry in place if the key is present, else
append a new entry. -/
def mapSet {α : Type} : List (String × α) → String → α → List (String × α)
  | [], k, v => [(k, v)]
  | (k₁, v₁) :: rest, k, v =>
    if k₁ = k then (k, v) :: rest else (k₁, v₁) :: mapSet rest k v

/-- JS Map keyed iteration order (Array.from(m.keys())). -/
def mapKeys {α : Type} (m : List (String × α)) : List String := m.map Prod.fst

/-- Update the value stored at an existing key in place (m.get(k)!.mutate). -/
def mapUpdate {α : Type} : List (String × α) → String → (α → α) → List (String × α)
  | [], _, _ => []
  | (k₁, v) :: rest, k, f =>
    if k₁ = k then (k₁, f v) :: rest else (k₁, v) :: mapUpdate rest k f

/-- JS Set.add: append unless already present (sets are duplicate-free ordered lists). -/
def setAdd (s : List String) (x : String) : List String :=
  if x ∈ s then s else s ++ [x]

/-- Dependencies of a registered job name; [] when the name is unregistered
(this.jobs.get(name)?.dependencies). -/
def depsOf (jobs : List (String × Job)) (name : String) : List String :=
  ((mapGet jobs name).map Job.dependencies).getD []

/-- Registration-time errors thrown by registerJob
(scheduler.ts lines 27-29, 71-74, 115-117). -/
inductive RegError where
  | invalidCron (expr : String)
  | depNotFound (dep requiredBy : String)
  | circular (jobName : String)
deriving Repr, DecidableEq

/-- Observable state of a JobScheduler instance (scheduler.ts lines 6-9). -/
structure SchedulerState where
  jobs : List (String × Job) := []
  scheduledTasks : List String := []
  scheduleToJobs : List (String × List String) := []
  isExecuting : Bool := false
deriving Repr, DecidableEq

/-- The dependency edge relation of the registered graph: a → b when the
registered job a lists b among its dependencies. -/
def edgeB (jobs : List (String × Job)) (a b : String) : Bool :=
  match mapGet jobs a with
  | some j => j.dependencies.contains b
  | none => false

/-- The registered dependency graph contains a directed cycle: some
nonempty edge path leads from a node back to itself. -/
def hasCycleIn (jobs : List (String × Job)) : Prop :=
  ∃ (x : String) (l : List String),
    List.Chain (fun a b => edgeB jobs a b = true) x (l ++ [x])

mutual

/-- The recursive hasCycle closure of detectCircularDependencies
(scheduler.ts lines 88-111): recursionStack membership signals a cycle,
visited nodes are skipped, otherwise the node is marked and its
dependencies are traversed with the node pushed on the stack.  The fuel
argument bounds the recursion depth of the JS closure; dfsVisit_total
below shows that the fuel used by detectCircularDependencies suffices. -/
def dfsVisit (jobs : List (String × Job)) :
    Nat → String → List String → List String → Option (Bool × List String)
  | 0, _, _, _ => none
  | fuel + 1, jobName, visited, stack =>
    if jobName ∈ stack then some (true, visited)
    else if jobName ∈ visited then some (false, visited)
    else dfsVisit.go jobs fuel (depsOf jobs jobName) (visited ++ [jobName]) (stack ++ [jobName])
termination_by fuel _ _ _ => (fuel, 0)

/-- The for-loop over job.dependencies inside hasCycle (scheduler.ts lines
102-106), threading the visited set and short-circuiting on a found cycle. -/
def dfsVisit.go (jobs : List (String × Job)) :
    Nat → List String → List String → List String → Option (Bool × List String)
  | _, [], visited, _ => some (false, visited)
  | fuel, d :: ds, visited, stack =>
    match dfsVisit jobs fuel d visited stack with
    | none => none
    | some (true, v) => some (true, v)
    | some (false, v) => dfsVisit.go jobs fuel ds v stack
termination_by fuel ds _ _ => (fuel, ds.length + 1)

end

/-- All names mentioned by the jobs map: keys plus every declared
dependency name.  Any node the DFS can reach is in this list. -/
def univNames (jobs : List (String × Job)) : List String :=
  mapKeys jobs ++ jobs.flatMap (fun p => p.2.dependencies)

/-- Fuel that is always sufficient for dfsVisit (strictly more than the
number of names the traversal can ever visit). -/
def dfsFuel (jobs : List (String × Job)) : Nat := (univNames jobs).length + 1

/-- The outer for-loop of detectCircularDependencies (scheduler.ts lines
113-119): run hasCycle from every registered job as a root, threading the
visited set; the first root whose traversal finds a cycle is reported
(the thrown error names that root). -/
def detectLoop (jobs : List (String × Job)) : List String → List String → Option String
  | [], _ => none
  | r :: rs, visited =>
    match dfsVisit jobs (dfsFuel jobs) r visited [] with
    | none => none
    | some (true, _) => some r
    | some (false, v) => detectLoop jobs rs v

/-- detectCircularDependencies (scheduler.ts lines 84-120); some name means
the method throws a circular-dependency error naming that job. -/
def detectCircularDependencies (jobs : List (String × Job)) : Option String :=
  detectLoop jobs (mapKeys jobs) []

/-- validateJobDependencies (scheduler.ts lines 63-79): nothing to do for an
empty dependency list; otherwise the first unregistered dependency name is
reported, and when all exist a full-graph cycle check runs. -/
def validateJobDependencies (jobs : List (String × Job)) (job : Job) : Option RegError :=
  if job.dependencies.isEmpty then none
  else
    match job.dependencies.find? (fun d => !(mapGet jobs d).isSome) with
    | some d => some (RegError.depNotFound d job.name)
    | none =>
      match detectCircularDependencies jobs with
      | some n => some (RegError.circular n)
      | none => none

/-- The schedule bookkeeping of registerJob (scheduler.ts lines 36-57): on a
new cron expression create an empty group and its single scheduled task,
then add the job name to the expression's group. -/
def addToSchedule (st : SchedulerState) (expr name : String) : SchedulerState :=
  let st₁ :=
    if (mapGet st.scheduleToJobs expr).isSome then st
    else { st with
            scheduleToJobs := st.scheduleToJobs ++ [(expr, [])],
            scheduledTasks := st.scheduledTasks ++ [expr] }
  { st₁ with scheduleToJobs := mapUpdate st₁.scheduleToJobs expr (fun g => setAdd g name) }

/-- registerJob (scheduler.ts lines 14-58).  The job is stored in the jobs
map first; then the cron expression is validated, then (when requested) the
dependencies; only a fully validated registration touches the schedule
maps.  The returned pair is the state after the call together with the
error thrown, if any (a thrown error leaves the already-performed mutation
of the jobs map in place). -/
def registerJob (cronValid : String → Bool) (st : SchedulerState) (job : Job)
    (cronExpression : String) (validateDependencies : Bool) :
    SchedulerState × Option RegError :=
  let st₁ := { st with jobs := mapSet st.jobs job.name job }
  if !cronValid cronExpression then
    (st₁, some (RegError.invalidCron cronExpression))
  else
    match (if validateDependencies then validateJobDependencies st₁.jobs job else none) with
    | some e => (st₁, some e)
    | none => (addToSchedule st₁ cronExpression job.name, none)

/-- The loop of removeJob over scheduleToJobs (scheduler.ts lines 400-415):
delete the name from the first group containing it; when that group becomes
empty delete the group and report its expression (whose task is stopped and
discarded); the loop breaks after the first hit. -/
def removeFromGroups : List (String × List String) → String →
    List (String × List String) × List String
  | [], _ => ([], [])
  | (expr, grp) :: rest, name =>
    if name ∈ grp then
      let g := grp.erase name
      if g.isEmpty then (rest, [expr])
      else ((expr, g) :: rest, [])
    else
      let (rest₂, removed) := removeFromGroups rest name
      ((expr, grp) :: rest₂, removed)

/-- removeJob (scheduler.ts lines 398-418): fix the schedule maps, then
delete the job from the registry, returning whether it was present. -/
def removeJob (st : SchedulerState) (name : String) : SchedulerState × Bool :=
  let (groups, removedExprs) := removeFromGroups st.scheduleToJobs name
  ({ st with
      scheduleToJobs := groups,
      scheduledTasks := removedExprs.foldl (fun t e => t.erase e) st.scheduledTasks,
      jobs := st.jobs.eraseP (fun p => p.1 == name) },
    (mapGet st.jobs name).isSome)

/-- hasJob (scheduler.ts lines 391-393). -/
def hasJob (st : SchedulerState) (name : String) : Bool :=
  (mapGet st.jobs name).isSome

/-- getJobs (scheduler.ts lines 384-386). -/
def getJobs (st : SchedulerState) : List String := mapKeys st.jobs

/-- Current in-degree of a node, with JS undefined-or-zero coercion
((inDegree.get(n) || 0)). -/
def degOf (m : List (String × Int)) (k : String) : Int :=
  ((mapGet m k).getD 0)

/-- The in-degree map of resolveDependencies (scheduler.ts lines 126-143):
every registered name starts at 0, then each declared dependency of a job
increments that job's own in-degree (also for unregistered dependency
names).  The source fills inDegree and adjList in the same two loops; they
are independent structures, so they are built by separate folds here. -/
def buildInDeg (jobs : List (String × Job)) : List (String × Int) :=
  jobs.foldl
    (fun m p => p.2.dependencies.foldl (fun m₂ _ => mapSet m₂ p.1 (degOf m₂ p.1 + 1)) m)
    (jobs.foldl (fun m p => mapSet m p.1 0) [])

/-- The adjacency map of resolveDependencies (scheduler.ts lines 127-143) as
a function: dependents are appended under each registered dependency name
(adjList.get(depName)?.push(jobName) is skipped for unregistered names,
since adjList only has entries for registered jobs). -/
def buildAdj (jobs : List (String × Job)) : String → List String :=
  jobs.foldl
    (fun adj p =>
      p.2.dependencies.foldl
        (fun adj₂ dep =>
          if (mapGet jobs dep).isSome then
            fun k => if k = dep then adj₂ k ++ [p.1] else adj₂ k
          else adj₂)
        adj)
    (fun _ => [])

/-- Seeding of the Kahn queue (scheduler.ts lines 150-154): iterate the
inDegree map entries in insertion order and enqueue the zero-degree names. -/
def initQueue (jobs : List (String × Job)) : List String :=
  (buildInDeg jobs).filterMap (fun p => if p.2 = 0 then some p.1 else none)

/-- The inner for-loop of Kahn's algorithm (scheduler.ts lines 161-169):
decrement each dependent's degree, enqueueing those that reach exactly 0. -/
def processDependents : List String → List (String × Int) → List String →
    List (String × Int) × List String
  | [], inDeg, queue => (inDeg, queue)
  | dependent :: rest, inDeg, queue =>
    let newDegree := degOf inDeg dependent - 1
    let inDeg₂ := mapSet inDeg dependent newDegree
    let queue₂ := if newDegree = 0 then queue ++ [dependent] else queue
    processDependents rest inDeg₂ queue₂

/-- Sum of the positive parts of the stored degrees; queue length plus this
quantity strictly decreases at every iteration of the Kahn while-loop, so
it bounds the remaining number of iterations. -/
def sumPos (m : List (String × Int)) : Nat := (m.map (fun p => p.2.toNat)).sum

/-- The while-loop of Kahn's algorithm (scheduler.ts lines 156-170):
dequeue, append to the result, process dependents.  The fuel bounds the
number of iterations; resolveDependencies passes provably sufficient fuel
(kahnLoop_fuel_irrelevant-style reasoning is inlined in the main lemmas). -/
def kahnLoop (adj : String → List String) :
    Nat → List String → List (String × Int) → List String
  | _, [], _ => []
  | 0, _ :: _, _ => []
  | fuel + 1, currentJob :: rest, inDeg =>
    let p := processDependents (adj currentJob) inDeg rest
    currentJob :: kahnLoop adj fuel p.2 p.1

/-- resolveDependencies (scheduler.ts lines 125-173): topological sort of
the registered jobs by Kahn's algorithm. -/
def resolveDependencies (jobs : List (String × Job)) : List String :=
  let inDeg := buildInDeg jobs
  let queue := initQueue jobs
  kahnLoop (buildAdj jobs) (queue.length + sumPos inDeg) queue inDeg

/-- getExecutionOrder (scheduler.ts lines 436-438). -/
def getExecutionOrder (jobs : List (String × Job)) : List String :=
  resolveDependencies jobs

/-- executeJob (scheduler.ts lines 336-379): an unregistered name yields a
not-found failure result; otherwise execute() runs, its thrown error (if
any) is caught and recorded, and the measured duration is attached. -/
def executeJob (jobs : List (String × Job)) (outcome : String → Option String)
    (dur : String → Nat) (jobName : String) : JobResult :=
  match mapGet jobs jobName with
  | none =>
    { success := false, error := some ("Job not found: " ++ jobName), executionTime := 0 }
  | some _ =>
    match outcome jobName with
    | none =>
      { success := true,
        message := some ("Job " ++ jobName ++ " completed successfully"),
        executionTime := dur jobName }
    | some e =>
      { success := false, error := some e, executionTime := dur jobName }

/-- The per-round loop of executeJobsWithDependencies (scheduler.ts lines
195-235) over the execution order, threading the completedJobs set.  The
third component of the result is the trace of job names whose execute()
was actually invoked. -/
def roundLoop (jobs : List (String × Job)) (outcome : String → Option String)
    (dur : String → Nat) :
    List String → List String → List JobResult × List String × List String
  | [], completed => ([], completed, [])
  | jobName :: rest, completed =>
    match mapGet jobs jobName with
    | none => roundLoop jobs outcome dur rest completed
    | some job =>
      match job.dependencies.find? (fun d => !(completed.contains d)) with
      | some dep =>
        let res : JobResult :=
          { success := false, jobName := some jobName, dependenciesMet := some false,
            skippedReason := some ("Dependency failed or was skipped: " ++ dep),
            executionTime := 0 }
        let r := roundLoop jobs outcome dur rest completed
        (res :: r.1, r.2.1, r.2.2)
      | none =>
        let r₀ := executeJob jobs outcome dur jobName
        let r₁ := { r₀ with jobName := some jobName, dependenciesMet := some true }
        let completed₂ := if r₁.success then setAdd completed jobName else completed
        let r := roundLoop jobs outcome dur rest completed₂
        (r₁ :: r.1, r.2.1, jobName :: r.2.2)

/-- executeJobsWithDependencies (scheduler.ts lines 178-241).  When a round
is already in flight (isExecuting) the call logs a warning and returns []
without touching anything; otherwise the round runs over the resolved
order and the finally-block restores isExecuting, so the state after the
call equals the state before it.  The middle component is the trace of
execute() invocations. -/
def executeJobsWithDependencies (st : SchedulerState) (outcome : String → Option String)
    (dur : String → Nat) : List JobResult × List String × SchedulerState :=
  if st.isExecuting then ([], [], st)
  else
    let r := roundLoop st.jobs outcome dur (resolveDependencies st.jobs) []
    (r.1, r.2.2, st)

/-- Example job A of the spec scenarios (no dependencies). -/
def exA : Job := { name := "A" }

/-- Example job B of the spec scenarios (depends on A). -/
def exB : Job := { name := "B", dependencies := ["A"] }

/-- Example job C of the spec scenarios (depends on B). -/
def exC : Job := { name := "C", dependencies := ["B"] }

/-- The registry holding the A → B → C dependency chain. -/
def exJobs : List (String × Job) := [("A", exA), ("B", exB), ("C", exC)]

/-- A rank function witnessing that exJobs is acyclic. -/
def exRank : String → Nat := fun s => if s = "A" then 0 else if s = "B" then 1 else 2

/-- Execution oracle for the scenario in which job A's execute() throws. -/
def exOutcomeFailA : String → Option String :=
  fun n => if n = "A" then some "boom" else none

/-- Execution oracle for the scenario in which job B's execute() throws. -/
def exOutcomeFailB : String → Option String :=
  fun n => if n = "B" then some "boom" else none

/-- A constant duration oracle. -/
def exDur : String → Nat := fun _ => 1

/-- The mutating operations of the scheduler's public registration API. -/
inductive SchedOp where
  | register (job : Job) (expr : String) (validate : Bool)
  | remove (name : String)

/-- Apply one operation; a failed registration keeps the mutated state it
left behind, exactly as the thrown exception would in the source. -/
def applyOp (cronValid : String → Bool) (st : SchedulerState) : SchedOp → SchedulerState
  | SchedOp.register job expr validate => (registerJob cronValid st job expr validate).1
  | SchedOp.remove name => (removeJob st name).1

/-- Run a sequence of operations from a fresh scheduler. -/
def applyOps (cronValid : String → Bool) (ops : List SchedOp) : SchedulerState :=
  ops.foldl (applyOp cronValid) {}

/-- The schedule-group invariant: the scheduled tasks are exactly (one per)
the cron expressions that own a schedule group, and every group is
nonempty.  Together: one underlying task per distinct cron expression that
has at least one job registered under it, and no task without such jobs. -/
def schedInvariant (st : SchedulerState) : Prop :=
  st.scheduledTasks = mapKeys st.scheduleToJobs ∧
  (mapKeys st.scheduleToJobs).Nodup ∧
  ∀ p ∈ st.scheduleToJobs, p.2 ≠ []

instance (st : SchedulerState) : Decidable (schedInvariant st) := by
  unfold schedInvariant
  infer_instance

/-- A concrete state with one singleton schedule group, for witnesses. -/
def exGroupState : SchedulerState :=
  { scheduleToJobs := [("0 * * * *", ["x"])], scheduledTasks := ["0 * * * *"] }

/-- A registry already containing a self-cycle (as left behind by an earlier
failed or unvalidated registration). -/
def cycState : SchedulerState :=
  { jobs := [("a", { name := "a", dependencies := ["a"] })] }

/-- A dependency-free job, for the C3 counterexample. -/
def exFreeJob : Job := { name := "b" }

/-- A self-dependent job, for the C3 witness. -/
def exSelfJob : Job := { name := "a", dependencies := ["a"] }

/-- The finished part of the DFS is closed and ranked: every visited node
that is off the recursion stack has all its successors visited, off the
stack, and of strictly smaller rank.  A completed cycle-free DFS leaves the
whole graph in this state, which forbids cycles among visited nodes. -/
def visClosed (jobs : List (String × Job)) (vis stack : List String) : Prop :=
  ∃ r : String → Nat, ∀ x ∈ vis, x ∉ stack →
    ∀ y, edgeB jobs x y = true → y ∈ vis ∧ y ∉ stack ∧ r y < r x

/-! ### Claim C10: executeJob on an unregistered name -/

/-- C10: calling the public executeJob with an unregistered job name does
not throw; it returns a JobResult with success=false, executionTime=0 and
an error recording that the job was not found. -/
theorem executeJob_unregistered (jobs : List (String × Job))
    (outcome : String → Option String) (dur : String → Nat) (jobName : String)
    (h : mapGet jobs jobName = none) :
    executeJob jobs outcome dur jobName =
      { success := false, error := some ("Job not found: " ++ jobName),
        executionTime := 0 } := by
  simp [executeJob, h]

/-- Witness for executeJob_unregistered at a concrete unregistered name. -/
theorem executeJob_unregistered_witness :
    mapGet ([] : List (String × Job)) "ghost" = none ∧
      executeJob [] (fun _ => none) (fun _ => 0) "ghost" =
        { success := false, error := some ("Job not found: " ++ "ghost"),
          executionTime := 0 } :=
  ⟨rfl, executeJob_unregistered [] (fun _ => none) (fun _ => 0) "ghost" rfl⟩

/-! ### Claim C4: the re-entrancy guard -/

/-- C4: when executeJobsWithDependencies is invoked while a round is in
flight (the isExecuting flag set at round start and cleared by its finally
block), the call returns an empty result list, invokes no job's execute()
(empty trace), throws nothing and leaves the state unchanged — the tick is
dropped, never queued. -/
theorem executeJobsWithDependencies_reentrancy_guard (st : SchedulerState)
    (outcome : String → Option String) (dur : String → Nat)
    (h : st.isExecuting = true) :
    executeJobsWithDependencies st outcome dur = ([], [], st) := by
  simp [executeJobsWithDependencies, h]

/-- Witness for the re-entrancy guard at a concrete in-flight state. -/
theorem executeJobsWithDependencies_reentrancy_guard_witness :
    (SchedulerState.isExecuting { isExecuting := true } = true) ∧
      executeJobsWithDependencies { isExecuting := true } (fun _ => none) (fun _ => 0) =
        ([], [], { isExecuting := true }) :=
  ⟨rfl, executeJobsWithDependencies_reentrancy_guard _ _ _ rfl⟩

/-! ### Claim C5: failed registrations are not atomic (corrected) -/

/-- C5 counterexample: registering job "a" with the unregistered dependency
"ghost" fails with DependencyNotFound, yet afterwards "a" is present in the
registered-job map — the scheduler's observable state differs from the
state before the failed call, refuting atomic rejection. -/
theorem registerJob_not_atomic_cex :
    (registerJob (fun _ => true) {} { name := "a", dependencies := ["ghost"] }
        "0 * * * *" true).2 = some (RegError.depNotFound "ghost" "a") ∧
      hasJob (registerJob (fun _ => true) {} { name := "a", dependencies := ["ghost"] }
        "0 * * * *" true).1 "a" = true ∧
      hasJob ({} : SchedulerState) "a" = false := by
  refine ⟨rfl, rfl, rfl⟩

/-- C5 amended: a failed registerJob call (invalid cron expression,
unregistered dependency or circular dependency) leaves the schedule groups,
the timers and the isExecuting flag exactly as they were, but the jobs map
does change: the job has already been stored in it, and its graph edges
remain.  The whole effect of a failed call is that single insertion. -/
theorem registerJob_failure_effect (cronValid : String → Bool) (st : SchedulerState)
    (job : Job) (expr : String) (validate : Bool) (e : RegError)
    (h : (registerJob cronValid st job expr validate).2 = some e) :
    (registerJob cronValid st job expr validate).1 =
      { st with jobs := mapSet st.jobs job.name job } := by
  unfold registerJob at h ⊢
  rcases hc : cronValid expr with _ | _ <;> simp [hc] at h ⊢
  rcases hv : (if validate then validateJobDependencies (mapSet st.jobs job.name job) job
      else none) with _ | e₂ <;> simp [hv] at h ⊢

/-- Witness for registerJob_failure_effect at a concrete failing call. -/
theorem registerJob_failure_effect_witness :
    (registerJob (fun _ => true) {} { name := "a", dependencies := ["ghost"] }
        "0 * * * *" true).2 = some (RegError.depNotFound "ghost" "a") ∧
      (registerJob (fun _ => true) {} { name := "a", dependencies := ["ghost"] }
          "0 * * * *" true).1 =
        { ({} : SchedulerState) with
            jobs := mapSet ([] : List (String × Job)) "a"
              { name := "a", dependencies := ["ghost"] } } :=
  ⟨rfl, registerJob_failure_effect (fun _ => true) {}
    { name := "a", dependencies := ["ghost"] } "0 * * * *" true
    (RegError.depNotFound "ghost" "a") rfl⟩

/-! ### Claim C6: the dependency-existence check -/

/-- C6: with dependency validation requested and a valid cron expression, a
job with some dependency name unregistered at validation time (the job
itself has been stored first, so its own name counts as registered) fails
with DependencyNotFound naming the first missing dependency; and a job all
of whose dependency names are registered passes the existence check — the
call never reports DependencyNotFound. -/
theorem registerJob_dependency_existence (cronValid : String → Bool)
    (st : SchedulerState) (job : Job) (expr : String)
    (hc : cronValid expr = true) :
    ((∃ d ∈ job.dependencies, mapGet (mapSet st.jobs job.name job) d = none) →
      ∃ d₀, job.dependencies.find?
          (fun d => !(mapGet (mapSet st.jobs job.name job) d).isSome) = some d₀ ∧
        (registerJob cronValid st job expr true).2 =
          some (RegError.depNotFound d₀ job.name)) ∧
    ((∀ d ∈ job.dependencies, (mapGet (mapSet st.jobs job.name job) d).isSome) →
      ∀ d₀ r, (registerJob cronValid st job expr true).2 ≠
        some (RegError.depNotFound d₀ r)) := by
  constructor
  · rintro ⟨d, hd, hnone⟩
    have hne : job.dependencies ≠ [] := by
      intro h; rw [h] at hd; exact absurd hd (List.not_mem_nil d)
    rcases hf : job.dependencies.find?
        (fun d => !(mapGet (mapSet st.jobs job.name job) d).isSome) with _ | d₀
    · exfalso
      have := List.find?_eq_none.mp hf d hd
      rw [hnone] at this
      simp at this
    · refine ⟨d₀, rfl, ?_⟩
      simp only [registerJob, hc, Bool.not_true, Bool.false_eq_true, if_false,
        validateJobDependencies, List.isEmpty_eq_true, hne, if_false, hf]
      simp
  · intro hall d₀ r
    have hf : job.dependencies.find?
        (fun d => !(mapGet (mapSet st.jobs job.name job) d).isSome) = none := by
      apply List.find?_eq_none.mpr
      intro d hd
      simp [hall d hd]
    rcases he : job.dependencies.isEmpty with _ | _
    · simp only [registerJob, hc, Bool.not_true, Bool.false_eq_true, if_false,
        validateJobDependencies, he, Bool.false_eq_true, if_false, hf]
      rcases detectCircularDependencies (mapSet st.jobs job.name job) with _ | n <;> simp
    · simp [registerJob, hc, validateJobDependencies, he]

/-- Witness for registerJob_dependency_existence: a concrete scheduler where
job "x" declares the unregistered dependency "ghost". -/
theorem registerJob_dependency_existence_witness :
    ((fun (_ : String) => true) "* * * * *" = true) ∧
      ((∃ d ∈ ["ghost"], mapGet (mapSet ([] : List (String × Job)) "x"
          { name := "x", dependencies := ["ghost"] }) d = none) →
        ∃ d₀, (["ghost"].find? (fun d => !(mapGet (mapSet ([] : List (String × Job)) "x"
            { name := "x", dependencies := ["ghost"] }) d).isSome)) = some d₀ ∧
          (registerJob (fun _ => true) {} { name := "x", dependencies := ["ghost"] }
            "* * * * *" true).2 = some (RegError.depNotFound d₀ "x")) := by
  refine ⟨rfl, ?_⟩
  have h := registerJob_dependency_existence (fun _ => true) {}
    { name := "x", dependencies := ["ghost"] } "* * * * *" rfl
  exact h.1

/-! ### Basic association-list lemmas -/

theorem mapGet_eq_none_iff {α : Type} (m : List (String × α)) (k : String) :
    mapGet m k = none ↔ k ∉ mapKeys m := by
  induction m with
  | nil => simp [mapGet, mapKeys]
  | cons p rest ih =>
    obtain ⟨k₁, v⟩ := p
    by_cases h : k₁ = k
    · subst h
      simp [mapGet, mapKeys]
    · have h₂ : ¬ k = k₁ := fun hcon => h hcon.symm
      simp [mapGet, mapKeys, h, h₂, ih]

theorem mapGet_isSome_iff {α : Type} (m : List (String × α)) (k : String) :
    (mapGet m k).isSome = true ↔ k ∈ mapKeys m := by
  rcases h : mapGet m k with _ | v
  · rw [mapGet_eq_none_iff] at h
    simp [h]
  · have hmem : k ∈ mapKeys m := by
      by_contra hk
      exact absurd ((mapGet_eq_none_iff m k).mpr hk) (by simp [h])
    simp [hmem]

theorem mapGet_mem {α : Type} (m : List (String × α)) (k : String) (v : α)
    (h : mapGet m k = some v) : (k, v) ∈ m := by
  induction m with
  | nil => simp [mapGet] at h
  | cons p rest ih =>
    obtain ⟨k₁, v₁⟩ := p
    by_cases hk : k₁ = k
    · subst hk
      simp [mapGet] at h
      simp [h]
    · simp [mapGet, hk] at h
      simp [ih h]

theorem mapGet_of_mem_nodup {α : Type} (m : List (String × α)) (p : String × α)
    (hnd : (mapKeys m).Nodup) (hp : p ∈ m) : mapGet m p.1 = some p.2 := by
  induction m with
  | nil => simp at hp
  | cons q rest ih =>
    obtain ⟨k₁, v₁⟩ := q
    simp only [mapKeys, List.map_cons, List.nodup_cons] at hnd
    rcases List.mem_cons.mp hp with h | h
    · subst h
      simp [mapGet]
    · have hne : k₁ ≠ p.1 := by
        intro hcon
        exact hnd.1 (hcon ▸ (List.mem_map.mpr ⟨p, h, rfl⟩))
      simp only [mapGet, hne, if_false]
      exact ih hnd.2 h

theorem mapGet_mapSet {α : Type} (m : List (String × α)) (k : String) (v : α)
    (k' : String) :
    mapGet (mapSet m k v) k' = if k = k' then some v else mapGet m k' := by
  induction m with
  | nil => by_cases h : k = k' <;> simp [mapSet, mapGet, h]
  | cons p rest ih =>
    obtain ⟨k₁, v₁⟩ := p
    by_cases h₁ : k₁ = k
    · subst h₁
      by_cases h₂ : k₁ = k' <;> simp [mapSet, mapGet, h₂]
    · by_cases h₂ : k₁ = k'
      · subst h₂
        have : ¬ k = k₁ := fun hcon => h₁ hcon.symm
        simp [mapSet, mapGet, h₁, this]
      · simp [mapSet, mapGet, h₁, h₂, ih]

theorem mapKeys_mapSet_of_mem {α : Type} (m : List (String × α)) (k : String) (v : α)
    (h : k ∈ mapKeys m) : mapKeys (mapSet m k v) = mapKeys m := by
  induction m with
  | nil => simp [mapKeys] at h
  | cons p rest ih =>
    obtain ⟨k₁, v₁⟩ := p
    by_cases h₁ : k₁ = k
    · simp [mapSet, mapKeys, h₁]
    · simp only [mapKeys, List.map_cons, List.mem_cons] at h
      rcases h with h | h
      · exact absurd h.symm h₁
      · have h₃ := ih (by simpa [mapKeys] using h)
        simp only [mapKeys, List.map] at h₃
        simp [mapSet, mapKeys, h₁, h₃]

theorem mapSet_of_not_mem {α : Type} (m : List (String × α)) (k : String) (v : α)
    (h : k ∉ mapKeys m) : mapSet m k v = m ++ [(k, v)] := by
  induction m with
  | nil => simp [mapSet]
  | cons p rest ih =>
    obtain ⟨k₁, v₁⟩ := p
    simp only [mapKeys, List.map_cons, List.mem_cons] at h
    push_neg at h
    have h₁ : k₁ ≠ k := fun hcon => h.1 hcon.symm
    simp [mapSet, h₁, ih (by simpa [mapKeys] using h.2)]

theorem degOf_mapSet (m : List (String × Int)) (k : String) (v : Int) (k' : String) :
    degOf (mapSet m k v) k' = if k = k' then v else degOf m k' := by
  unfold degOf
  rw [mapGet_mapSet]
  by_cases h : k = k' <;> simp [h]

/-! ### Characterisation of the in-degree map built by resolveDependencies -/

theorem initFold_eq (l : List (String × Job)) :
    ∀ m : List (String × Int), (∀ p ∈ l, p.1 ∉ mapKeys m) → (mapKeys l).Nodup →
      l.foldl (fun m₂ p => mapSet m₂ p.1 (0 : Int)) m = m ++ l.map (fun p => (p.1, (0 : Int))) := by
  induction l with
  | nil => intro m _ _; simp
  | cons p rest ih =>
    intro m hfresh hnd
    simp only [List.foldl_cons]
    rw [mapSet_of_not_mem m p.1 0 (hfresh p (by simp))]
    simp only [mapKeys, List.map_cons, List.nodup_cons] at hnd
    rw [ih (m ++ [(p.1, 0)]) ?_ hnd.2]
    · simp
    · intro q hq
      simp only [mapKeys, List.map_append, List.mem_append]
      push_neg
      refine ⟨fun hcon => hfresh q (by simp [hq]) hcon, ?_⟩
      simp only [List.map_cons, List.map_nil, List.mem_singleton]
      intro hcon
      exact hnd.1 (hcon ▸ List.mem_map.mpr ⟨q, hq, rfl⟩)

theorem degOf_zeros (l : List (String × Job)) (k : String) :
    degOf (l.map (fun p => (p.1, (0 : Int)))) k = 0 := by
  induction l with
  | nil => simp [degOf, mapGet]
  | cons p rest ih =>
    by_cases h : p.1 = k <;> simp [degOf, mapGet, h] <;> simpa [degOf] using ih

theorem incrFold_deg (ds : List String) :
    ∀ (m : List (String × Int)) (j k : String),
      degOf (ds.foldl (fun m₂ _ => mapSet m₂ j (degOf m₂ j + 1)) m) k
        = degOf m k + (if j = k then (ds.length : Int) else 0) := by
  induction ds with
  | nil => intro m j k; simp
  | cons d rest ih =>
    intro m j k
    simp only [List.foldl_cons]
    rw [ih]
    rw [degOf_mapSet]
    by_cases h : j = k <;> simp [h] <;> ring

theorem incrFold_keys (ds : List String) :
    ∀ (m : List (String × Int)) (j : String), j ∈ mapKeys m →
      mapKeys (ds.foldl (fun m₂ _ => mapSet m₂ j (degOf m₂ j + 1)) m) = mapKeys m := by
  induction ds with
  | nil => intro m j _; rfl
  | cons d rest ih =>
    intro m j hj
    simp only [List.foldl_cons]
    rw [ih _ j (by rw [mapKeys_mapSet_of_mem _ _ _ hj]; exact hj),
      mapKeys_mapSet_of_mem _ _ _ hj]

theorem incrPhase_deg (l : List (String × Job)) :
    ∀ (m : List (String × Int)) (k : String),
      degOf (l.foldl (fun m₂ p =>
          p.2.dependencies.foldl (fun m₃ _ => mapSet m₃ p.1 (degOf m₃ p.1 + 1)) m₂) m) k
        = degOf m k +
          (l.map (fun p => if p.1 = k then (p.2.dependencies.length : Int) else 0)).sum := by
  induction l with
  | nil => intro m k; simp
  | cons p rest ih =>
    intro m k
    simp only [List.foldl_cons, List.map_cons, List.sum_cons]
    rw [ih, incrFold_deg]
    ring

theorem incrPhase_keys (l : List (String × Job)) :
    ∀ m : List (String × Int), (∀ p ∈ l, p.1 ∈ mapKeys m) →
      mapKeys (l.foldl (fun m₂ p =>
          p.2.dependencies.foldl (fun m₃ _ => mapSet m₃ p.1 (degOf m₃ p.1 + 1)) m₂) m)
        = mapKeys m := by
  induction l with
  | nil => intro m _; rfl
  | cons p rest ih =>
    intro m hmem
    simp only [List.foldl_cons]
    have hk := incrFold_keys p.2.dependencies m p.1 (hmem p (by simp))
    rw [ih _ (fun q hq => by rw [hk]; exact hmem q (by simp [hq])), hk]

theorem sum_ite_key_of_not_mem (g : Job → Int) (l : List (String × Job)) (k : String)
    (h : k ∉ mapKeys l) :
    (l.map (fun p => if p.1 = k then g p.2 else 0)).sum = 0 := by
  induction l with
  | nil => simp
  | cons p rest ih =>
    simp only [mapKeys, List.map_cons, List.mem_cons] at h
    push_neg at h
    have h₁ : p.1 ≠ k := fun hc => h.1 hc.symm
    simp only [List.map_cons, List.sum_cons, h₁, if_false]
    rw [ih (by simpa [mapKeys] using h.2)]
    simp

theorem sum_ite_key_eq (g : Job → Int) (l : List (String × Job)) (k : String)
    (hnd : (mapKeys l).Nodup) :
    (l.map (fun p => if p.1 = k then g p.2 else 0)).sum
      = ((mapGet l k).map g).getD 0 := by
  induction l with
  | nil => simp [mapGet]
  | cons p rest ih =>
    simp only [mapKeys, List.map_cons, List.nodup_cons] at hnd
    by_cases h : p.1 = k
    · subst h
      simp only [List.map_cons, List.sum_cons, if_true, reduceIte]
      rw [sum_ite_key_of_not_mem g rest p.1 hnd.1]
      simp [mapGet]
    · simp only [List.map_cons, List.sum_cons, h, if_false]
      rw [ih hnd.2]
      simp [mapGet, h]

theorem buildInDeg_unfold (jobs : List (String × Job)) :
    buildInDeg jobs = jobs.foldl (fun m₂ p =>
        p.2.dependencies.foldl (fun m₃ _ => mapSet m₃ p.1 (degOf m₃ p.1 + 1)) m₂)
      (jobs.foldl (fun m p => mapSet m p.1 0) []) := by
  rfl

theorem degOf_buildInDeg (jobs : List (String × Job)) (hnd : (mapKeys jobs).Nodup)
    (k : String) : degOf (buildInDeg jobs) k = ((depsOf jobs k).length : Int) := by
  rw [buildInDeg_unfold, incrPhase_deg,
    initFold_eq jobs [] (by simp [mapKeys, mapGet]) hnd,
    sum_ite_key_eq (fun j => (j.dependencies.length : Int)) jobs k hnd]
  rcases h : mapGet jobs k with _ | j <;> simp [degOf_zeros, depsOf, h]

theorem buildInDeg_keys (jobs : List (String × Job)) (hnd : (mapKeys jobs).Nodup) :
    mapKeys (buildInDeg jobs) = mapKeys jobs := by
  rw [buildInDeg_unfold, initFold_eq jobs [] (by simp [mapKeys, mapGet]) hnd]
  have hkeys : mapKeys (([] : List (String × Int)) ++
      jobs.map (fun p => (p.1, (0 : Int)))) = mapKeys jobs := by
    simp [mapKeys, List.map_map]
  rw [incrPhase_keys jobs _ (fun p hp => by
    rw [hkeys]; exact List.mem_map.mpr ⟨p, hp, rfl⟩), hkeys]

/-! ### Characterisation of the initial Kahn queue -/

theorem filterMap_zero_sublist (m : List (String × Int)) :
    (m.filterMap (fun p => if p.2 = 0 then some p.1 else none)).Sublist (m.map Prod.fst) := by
  induction m with
  | nil => simp
  | cons p rest ih =>
    by_cases h : p.2 = 0
    · simpa [List.filterMap_cons, h] using ih.cons₂ p.1
    · simpa [List.filterMap_cons, h] using ih.cons p.1

theorem initQueue_nodup (jobs : List (String × Job)) (hnd : (mapKeys jobs).Nodup) :
    (initQueue jobs).Nodup := by
  have h₁ : (mapKeys (buildInDeg jobs)).Nodup := by rw [buildInDeg_keys jobs hnd]; exact hnd
  exact (filterMap_zero_sublist (buildInDeg jobs)).nodup h₁

theorem mem_initQueue (jobs : List (String × Job)) (hnd : (mapKeys jobs).Nodup)
    (k : String) :
    k ∈ initQueue jobs ↔ k ∈ mapKeys jobs ∧ depsOf jobs k = [] := by
  unfold initQueue
  rw [List.mem_filterMap]
  constructor
  · rintro ⟨p, hp, hcond⟩
    by_cases h : p.2 = 0
    · simp only [h, if_true, Option.some.injEq, reduceIte] at hcond
      subst hcond
      have hk : p.1 ∈ mapKeys (buildInDeg jobs) := List.mem_map.mpr ⟨p, hp, rfl⟩
      have hget := mapGet_of_mem_nodup (buildInDeg jobs) p
        (by rw [buildInDeg_keys jobs hnd]; exact hnd) hp
      have hdeg : degOf (buildInDeg jobs) p.1 = 0 := by simp [degOf, hget, h]
      rw [degOf_buildInDeg jobs hnd] at hdeg
      refine ⟨by rwa [buildInDeg_keys jobs hnd] at hk, ?_⟩
      simpa using hdeg
    · simp [h] at hcond
  · rintro ⟨hk, hdeps⟩
    have hk₂ : k ∈ mapKeys (buildInDeg jobs) := by rwa [buildInDeg_keys jobs hnd]
    obtain ⟨v, hv⟩ := Option.isSome_iff_exists.mp ((mapGet_isSome_iff _ k).mpr hk₂)
    have hdeg : degOf (buildInDeg jobs) k = 0 := by
      rw [degOf_buildInDeg jobs hnd, hdeps]; simp
    have hv0 : v = 0 := by
      have : degOf (buildInDeg jobs) k = v := by simp [degOf, hv]
      omega
    exact ⟨(k, v), mapGet_mem _ _ _ hv, by simp [hv0]⟩

/-! ### Characterisation of the adjacency map built by resolveDependencies -/

theorem innerAdj_eq (jobs : List (String × Job)) (ds : List String) :
    ∀ (adj : String → List String) (j q : String),
      (ds.foldl (fun adj₂ dep =>
          if (mapGet jobs dep).isSome then
            fun k => if k = dep then adj₂ k ++ [j] else adj₂ k
          else adj₂) adj) q
        = adj q ++ (if (mapGet jobs q).isSome then List.replicate (ds.count q) j else []) := by
  induction ds with
  | nil => intro adj j q; simp
  | cons d rest ih =>
    intro adj j q
    simp only [List.foldl_cons]
    by_cases hd : (mapGet jobs d).isSome
    · simp only [hd, if_true, reduceIte]
      rw [ih]
      by_cases hq : q = d
      · subst hq
        simp [hd, List.count_cons_self, List.replicate_succ, List.append_assoc]
      · have h₂ : ¬ q = d := hq
        simp only [h₂, if_false, List.count_cons, reduceIte]
        have hbeq : (d == q) = false := by
          simp [Ne.symm hq]
        simp [hbeq]
    · simp only [hd, if_false, reduceIte]
      rw [ih]
      by_cases hq : (mapGet jobs q).isSome
      · have hqd : q ≠ d := fun hc => hd (hc ▸ hq)
        simp only [hq, if_true, reduceIte, List.count_cons]
        have : (d == q) = false := by simp [Ne.symm hqd]
        simp [this]
      · simp [hq]

theorem buildAdj_eq (jobs : List (String × Job)) (q : String) :
    buildAdj jobs q =
      if (mapGet jobs q).isSome then
        jobs.flatMap (fun p => List.replicate (p.2.dependencies.count q) p.1)
      else [] := by
  suffices h : ∀ (l : List (String × Job)) (adj : String → List String),
      (l.foldl (fun adj₂ p =>
          p.2.dependencies.foldl (fun adj₃ dep =>
            if (mapGet jobs dep).isSome then
              fun k => if k = dep then adj₃ k ++ [p.1] else adj₃ k
            else adj₃) adj₂) adj) q
        = adj q ++ (if (mapGet jobs q).isSome then
            l.flatMap (fun p => List.replicate (p.2.dependencies.count q) p.1)
          else []) by
    have := h jobs (fun _ => [])
    simpa [buildAdj] using this
  intro l
  induction l with
  | nil => intro adj; simp
  | cons p rest ih =>
    intro adj
    simp only [List.foldl_cons]
    rw [ih, innerAdj_eq]
    by_cases hq : (mapGet jobs q).isSome
    · simp [hq, List.flatMap_cons]
    · simp [hq]

theorem buildAdj_mem (jobs : List (String × Job)) (q x : String)
    (h : x ∈ buildAdj jobs q) : x ∈ mapKeys jobs := by
  rw [buildAdj_eq] at h
  by_cases hq : (mapGet jobs q).isSome
  · simp only [hq, if_true, reduceIte, List.mem_flatMap] at h
    obtain ⟨p, hp, hx⟩ := h
    rw [List.eq_of_mem_replicate hx]
    exact List.mem_map.mpr ⟨p, hp, rfl⟩
  · simp [hq] at h

theorem count_flatMap_replicate (l : List (String × Job)) (q k : String) :
    (l.flatMap (fun p => List.replicate (p.2.dependencies.count q) p.1)).count k
      = ((l.map (fun p => if p.1 = k then ((p.2.dependencies.count q : Int)) else 0)).sum).toNat := by
  induction l with
  | nil => simp
  | cons p rest ih =>
    simp only [List.flatMap_cons, List.count_append, List.map_cons, List.sum_cons, ih]
    have hnonneg : 0 ≤ (rest.map
        (fun p => if p.1 = k then ((p.2.dependencies.count q : Int)) else 0)).sum := by
      apply List.sum_nonneg
      intro x hx
      obtain ⟨p₂, _, hp₂⟩ := List.mem_map.mp hx
      subst hp₂
      by_cases h : p₂.1 = k <;> simp [h]
    by_cases h : p.1 = k
    · subst h
      simp [List.count_replicate] <;> omega
    · simp [List.count_replicate, h, Ne.symm h] <;> omega

theorem buildAdj_count (jobs : List (String × Job)) (hnd : (mapKeys jobs).Nodup)
    (cur k : String) (hcur : cur ∈ mapKeys jobs) :
    (buildAdj jobs cur).count k = (depsOf jobs k).count cur := by
  rw [buildAdj_eq]
  simp only [(mapGet_isSome_iff jobs cur).mpr hcur, if_true, reduceIte]
  rw [count_flatMap_replicate,
    sum_ite_key_eq (fun j => ((j.dependencies.count cur : Int))) jobs k hnd]
  rcases h : mapGet jobs k with _ | j <;> simp [depsOf, h]

/-! ### Behaviour of processDependents -/

theorem sumPos_mapSet_dec (m : List (String × Int)) (k : String) :
    sumPos (mapSet m k (degOf m k - 1)) + (if degOf m k = 1 then 1 else 0) ≤ sumPos m := by
  induction m with
  | nil => simp [mapSet, sumPos, degOf, mapGet]
  | cons p rest ih =>
    obtain ⟨k₁, v⟩ := p
    by_cases h : k₁ = k
    · subst h
      have hdeg : degOf ((k₁, v) :: rest) k₁ = v := by simp [degOf, mapGet]
      have hset : mapSet ((k₁, v) :: rest) k₁ (v - 1) = (k₁, v - 1) :: rest := by
        simp [mapSet]
      rw [hdeg, hset]
      simp only [sumPos, List.map_cons, List.sum_cons]
      by_cases hv : v = 1
      · rw [if_pos hv]
        omega
      · rw [if_neg hv]
        omega
    · have hdeg : degOf ((k₁, v) :: rest) k = degOf rest k := by
        simp [degOf, mapGet, h]
      have hset : mapSet ((k₁, v) :: rest) k (degOf rest k - 1)
          = (k₁, v) :: mapSet rest k (degOf rest k - 1) := by
        simp [mapSet, h]
      have hsum : ∀ (p : String × Int) (l : List (String × Int)),
          sumPos (p :: l) = p.2.toNat + sumPos l := by
        intro p l; simp [sumPos]
      rw [hdeg, hset, hsum, hsum]
      have := ih
      omega

theorem processDependents_measure (E : List String) :
    ∀ (m : List (String × Int)) (q : List String),
      (processDependents E m q).2.length + sumPos (processDependents E m q).1
        ≤ q.length + sumPos m := by
  induction E with
  | nil => intro m q; simp [processDependents]
  | cons d rest ih =>
    intro m q
    simp only [processDependents]
    have hdec := sumPos_mapSet_dec m d
    by_cases h : degOf m d - 1 = 0
    · have h1 : degOf m d = 1 := by omega
      rw [if_pos h1] at hdec
      rw [if_pos h]
      have hih := ih (mapSet m d (degOf m d - 1)) (q ++ [d])
      simp only [List.length_append, List.length_cons, List.length_nil] at hih ⊢
      omega
    · have h1 : ¬ degOf m d = 1 := by omega
      rw [if_neg h1] at hdec
      rw [if_neg h]
      have hih := ih (mapSet m d (degOf m d - 1)) q
      omega

theorem processDependents_spec (E : List String) :
    ∀ (m : List (String × Int)) (q : List String),
      ∃ enq : List String,
        (processDependents E m q).2 = q ++ enq ∧ enq.Nodup ∧
        (∀ k, degOf (processDependents E m q).1 k = degOf m k - (E.count k : Int)) ∧
        (∀ k, k ∈ enq ↔ 0 < degOf m k ∧ degOf m k ≤ (E.count k : Int)) := by
  induction E with
  | nil =>
    intro m q
    refine ⟨[], by simp [processDependents], List.nodup_nil, ?_, ?_⟩
    · intro k; simp [processDependents]
    · intro k
      simp only [List.not_mem_nil, List.count_nil, Nat.cast_zero, false_iff, not_and]
      intro h1 h2
      omega
  | cons d rest ih =>
    intro m q
    set m₁ := mapSet m d (degOf m d - 1) with hm₁
    obtain ⟨enq₁, he₁, hnd₁, hdeg₁, hmem₁⟩ :=
      ih m₁ (if degOf m d - 1 = 0 then q ++ [d] else q)
    have hdm₁ : ∀ k, degOf m₁ k = if d = k then degOf m d - 1 else degOf m k := by
      intro k; rw [hm₁, degOf_mapSet]
    refine ⟨(if degOf m d - 1 = 0 then [d] else []) ++ enq₁, ?_, ?_, ?_, ?_⟩
    · simp only [processDependents]
      rw [he₁]
      by_cases h : degOf m d - 1 = 0 <;> simp [h]
    · by_cases h : degOf m d - 1 = 0
      · simp only [h, if_true, reduceIte, List.singleton_append, List.nodup_cons]
        refine ⟨?_, hnd₁⟩
        intro hcon
        have := (hmem₁ d).mp hcon
        rw [hdm₁ d, if_pos rfl] at this
        omega
      · simpa [h] using hnd₁
    · intro k
      simp only [processDependents]
      rw [hdeg₁ k, hdm₁ k, List.count_cons]
      by_cases h : k = d
      · subst h
        simp only [if_pos rfl, beq_self_eq_true, reduceIte]
        push_cast
        omega
      · have hne : ¬ d = k := fun hc => h hc.symm
        have hbeq : (d == k) = false := by simp [hne]
        simp only [hne, if_false, hbeq, Bool.false_eq_true, reduceIte]
        push_cast
        omega
    · intro k
      rw [List.mem_append, hmem₁ k, hdm₁ k, List.count_cons]
      by_cases h : k = d
      · subst h
        simp only [if_pos rfl, beq_self_eq_true, reduceIte]
        by_cases h0 : degOf m k - 1 = 0
        · rw [if_pos h0]
          push_cast
          constructor
          · intro _; omega
          · intro _; exact Or.inl (List.mem_singleton_self k)
        · rw [if_neg h0]
          simp only [List.not_mem_nil, false_or]
          push_cast
          omega
      · have hne : ¬ d = k := fun hc => h hc.symm
        have hbeq : (d == k) = false := by simp [hne]
        simp only [hbeq, Bool.false_eq_true, reduceIte, hne, if_false]
        by_cases h0 : degOf m d - 1 = 0
        · rw [if_pos h0]
          simp only [List.mem_singleton, h, false_or, Nat.add_zero]
        · rw [if_neg h0]
          simp only [List.not_mem_nil, false_or, Nat.add_zero]

/-! ### Auxiliary counting lemmas for the Kahn loop invariant -/

theorem countP_snoc (done : List String) (cur : String) (hcur : cur ∉ done)
    (l : List String) :
    l.countP (fun d => !(decide (d ∈ done ++ [cur]))) + l.count cur
      = l.countP (fun d => !(decide (d ∈ done))) := by
  induction l with
  | nil => simp
  | cons d rest ih =>
    simp only [List.countP_cons, List.count_cons]
    by_cases h : d = cur
    · subst h
      simp [hcur] at ih ⊢
      omega
    · by_cases h2 : d ∈ done
      · simp [h, h2, hcur] at ih ⊢
        omega
      · simp [h, h2, hcur] at ih ⊢
        omega

theorem countP_split (done : List String) (cur : String) (hcur : cur ∉ done)
    (l : List String) :
    l.countP (fun d => !(decide (d ∈ done)))
      = l.count cur + l.countP (fun d => !(decide (d ∈ done)) && !(decide (d = cur))) := by
  induction l with
  | nil => simp
  | cons d rest ih =>
    simp only [List.countP_cons, List.count_cons]
    by_cases h : d = cur
    · subst h
      simp [hcur] at ih ⊢
      omega
    · by_cases h2 : d ∈ done
      · simp [h, h2, hcur] at ih ⊢
        omega
      · simp [h, h2, hcur] at ih ⊢
        omega

/-! ### The Kahn loop invariant -/

theorem kahnLoop_nil (adj : String → List String) (fuel : Nat)
    (inDeg : List (String × Int)) : kahnLoop adj fuel [] inDeg = [] := by
  cases fuel <;> simp [kahnLoop]

theorem kahn_invariant (jobs : List (String × Job)) (hnd : (mapKeys jobs).Nodup) :
    ∀ (fuel : Nat) (queue : List String) (inDeg : List (String × Int)) (done : List String),
      queue.length + sumPos inDeg ≤ fuel →
      (done ++ queue).Nodup →
      (∀ x ∈ done ++ queue, x ∈ mapKeys jobs) →
      (∀ k ∈ mapKeys jobs, degOf inDeg k
          = ((depsOf jobs k).countP (fun d => !(decide (d ∈ done))) : Int)) →
      (∀ k ∈ mapKeys jobs, k ∉ done →
        (k ∈ queue ↔ ∀ d ∈ depsOf jobs k, d ∈ done)) →
      (∀ x ∈ done, ∀ d ∈ depsOf jobs x,
        d ∈ done ∧ done.indexOf d < done.indexOf x) →
      ((done ++ kahnLoop (buildAdj jobs) fuel queue inDeg).Nodup ∧
        (∀ x ∈ done ++ kahnLoop (buildAdj jobs) fuel queue inDeg, x ∈ mapKeys jobs) ∧
        (∀ x ∈ done ++ kahnLoop (buildAdj jobs) fuel queue inDeg, ∀ d ∈ depsOf jobs x,
          d ∈ done ++ kahnLoop (buildAdj jobs) fuel queue inDeg ∧
            (done ++ kahnLoop (buildAdj jobs) fuel queue inDeg).indexOf d
              < (done ++ kahnLoop (buildAdj jobs) fuel queue inDeg).indexOf x) ∧
        (∀ k ∈ mapKeys jobs, k ∉ done ++ kahnLoop (buildAdj jobs) fuel queue inDeg →
          ∃ d ∈ depsOf jobs k, d ∉ done ++ kahnLoop (buildAdj jobs) fuel queue inDeg)) := by
  intro fuel
  induction fuel with
  | zero =>
    intro queue inDeg done hfuel hdq hsub hdeg hq hord
    have hqe : queue = [] := by
      cases queue with
      | nil => rfl
      | cons a t => simp at hfuel
    subst hqe
    rw [kahnLoop_nil, List.append_nil]
    rw [List.append_nil] at hdq hsub
    refine ⟨hdq, hsub, hord, ?_⟩
    intro k hk hknot
    have hiff := hq k hk hknot
    simp only [List.not_mem_nil, false_iff, not_forall] at hiff
    obtain ⟨d, hd, hdnot⟩ := hiff
    exact ⟨d, hd, hdnot⟩
  | succ fuel ih =>
    intro queue inDeg done hfuel hdq hsub hdeg hq hord
    cases queue with
    | nil =>
      rw [kahnLoop_nil, List.append_nil]
      rw [List.append_nil] at hdq hsub
      refine ⟨hdq, hsub, hord, ?_⟩
      intro k hk hknot
      have hiff := hq k hk hknot
      simp only [List.not_mem_nil, false_iff, not_forall] at hiff
      obtain ⟨d, hd, hdnot⟩ := hiff
      exact ⟨d, hd, hdnot⟩
    | cons cur rest =>
      have hstep : kahnLoop (buildAdj jobs) (fuel + 1) (cur :: rest) inDeg
          = cur :: kahnLoop (buildAdj jobs) fuel
              (processDependents (buildAdj jobs cur) inDeg rest).2
              (processDependents (buildAdj jobs cur) inDeg rest).1 := by
        simp [kahnLoop]
      obtain ⟨enq, he, hend, hdeg2, hmem2⟩ :=
        processDependents_spec (buildAdj jobs cur) inDeg rest
      have hcurk : cur ∈ mapKeys jobs := hsub cur (by simp)
      have hdisj := (List.nodup_append.mp hdq).2.2
      have hcurnd : cur ∉ done := fun hc => hdisj hc (by simp)
      have hcurdeps : ∀ d ∈ depsOf jobs cur, d ∈ done :=
        (hq cur hcurk hcurnd).mp (by simp)
      have hadjc : ∀ k, (buildAdj jobs cur).count k = (depsOf jobs k).count cur :=
        fun k => buildAdj_count jobs hnd cur k hcurk
      have henqk : ∀ a ∈ enq, a ∈ mapKeys jobs := by
        intro a ha
        have h2 := (hmem2 a).mp ha
        have hc : (0 : Int) < ((buildAdj jobs cur).count a : Int) :=
          lt_of_lt_of_le h2.1 h2.2
        have hc₂ : 0 < (buildAdj jobs cur).count a := by exact_mod_cast hc
        exact buildAdj_mem jobs cur a (List.count_pos_iff.mp hc₂)
      have hcountP_zero : ∀ a, a ∈ mapKeys jobs →
          (∀ d ∈ depsOf jobs a, d ∈ done) →
          degOf inDeg a = 0 := by
        intro a hak hcl
        rw [hdeg a hak]
        have : (depsOf jobs a).countP (fun d => !(decide (d ∈ done))) = 0 :=
          List.countP_eq_zero.mpr (fun d hd => by simp [hcl d hd])
        simp [this]
      have henqfresh : ∀ a ∈ enq, a ∉ done ++ cur :: rest := by
        intro a ha hmem
        have h2 := (hmem2 a).mp ha
        rcases List.mem_append.mp hmem with hdone | hqmem
        · have hcl : ∀ d ∈ depsOf jobs a, d ∈ done := fun d hd => (hord a hdone d hd).1
          have := hcountP_zero a (henqk a ha) hcl
          omega
        · have hadone : a ∉ done := fun hc => hdisj hc hqmem
          have hcl : ∀ d ∈ depsOf jobs a, d ∈ done :=
            (hq a (henqk a ha) hadone).mp hqmem
          have := hcountP_zero a (henqk a ha) hcl
          omega
      -- the six hypotheses of the induction hypothesis, at done ++ [cur]
      have hfuel₂ : (processDependents (buildAdj jobs cur) inDeg rest).2.length
          + sumPos (processDependents (buildAdj jobs cur) inDeg rest).1 ≤ fuel := by
        have hm := processDependents_measure (buildAdj jobs cur) inDeg rest
        simp only [List.length_cons] at hfuel
        omega
      have hdq₂ : ((done ++ [cur]) ++ (processDependents (buildAdj jobs cur) inDeg rest).2).Nodup := by
        rw [he]
        have hEq : (done ++ [cur]) ++ (rest ++ enq) = (done ++ cur :: rest) ++ enq := by
          simp
        rw [hEq]
        rw [List.nodup_append]
        exact ⟨hdq, hend, fun a hmem ha => henqfresh a ha hmem⟩
      have hsub₂ : ∀ x ∈ (done ++ [cur]) ++ (processDependents (buildAdj jobs cur) inDeg rest).2,
          x ∈ mapKeys jobs := by
        intro x hx
        rw [he] at hx
        rcases List.mem_append.mp hx with hx | hx
        · rcases List.mem_append.mp hx with hx | hx
          · exact hsub x (List.mem_append_left _ hx)
          · rw [List.mem_singleton.mp hx]; exact hcurk
        · rcases List.mem_append.mp hx with hx | hx
          · exact hsub x (List.mem_append_right _ (by simp [hx]))
          · exact henqk x hx
      have hdeg₂ : ∀ k ∈ mapKeys jobs,
          degOf (processDependents (buildAdj jobs cur) inDeg rest).1 k
            = (((depsOf jobs k).countP (fun d => !(decide (d ∈ done ++ [cur]))) : Int)) := by
        intro k hk
        have hsnoc := countP_snoc done cur hcurnd (depsOf jobs k)
        have h1 := hdeg2 k
        have h2 := hdeg k hk
        rw [hadjc k] at h1
        omega
      have hq₂ : ∀ k ∈ mapKeys jobs, k ∉ done ++ [cur] →
          (k ∈ (processDependents (buildAdj jobs cur) inDeg rest).2 ↔
            ∀ d ∈ depsOf jobs k, d ∈ done ++ [cur]) := by
        intro k hk hknot
        have hknotd : k ∉ done := fun hc => hknot (List.mem_append_left _ hc)
        have hkncur : k ≠ cur := fun hc => hknot (by simp [hc])
        have hsplit := countP_split done cur hcurnd (depsOf jobs k)
        have hclosure : (∀ d ∈ depsOf jobs k, d ∈ done ++ [cur]) ↔
            (depsOf jobs k).countP (fun d => !(decide (d ∈ done)) && !(decide (d = cur))) = 0 := by
          rw [List.countP_eq_zero]
          constructor
          · intro hall d hd
            rcases List.mem_append.mp (hall d hd) with h1 | h1
            · simp [h1]
            · simp [List.mem_singleton.mp h1]
          · intro hz d hd
            have := hz d hd
            by_cases hdd : d ∈ done
            · exact List.mem_append_left _ hdd
            · by_cases hdc : d = cur
              · simp [hdc]
              · exfalso; apply this; simp [hdd, hdc]
        rw [he]
        constructor
        · intro hkq
          rcases List.mem_append.mp hkq with hkr | hke
          · intro d hd
            exact List.mem_append_left _
              (((hq k hk hknotd).mp (by simp [hkr])) d hd)
          · have h2 := (hmem2 k).mp hke
            rw [hdeg k hk, hadjc k] at h2
            rw [hclosure]
            omega
        · intro hall
          have hz := hclosure.mp hall
          by_cases hn : (depsOf jobs k).countP (fun d => !(decide (d ∈ done))) = 0
          · have hcl : ∀ d ∈ depsOf jobs k, d ∈ done := by
              intro d hd
              have := List.countP_eq_zero.mp hn d hd
              simpa using this
            have hkq := (hq k hk hknotd).mpr hcl
            rcases List.mem_cons.mp hkq with hc | hc
            · exact absurd hc hkncur
            · exact List.mem_append_left _ hc
          · refine List.mem_append_right _ ((hmem2 k).mpr ?_)
            rw [hdeg k hk, hadjc k]
            omega
      have hord₂ : ∀ x ∈ done ++ [cur], ∀ d ∈ depsOf jobs x,
          d ∈ done ++ [cur] ∧
            (done ++ [cur]).indexOf d < (done ++ [cur]).indexOf x := by
        intro x hx d hd
        rcases List.mem_append.mp hx with hx | hx
        · obtain ⟨hd1, hd2⟩ := hord x hx d hd
          refine ⟨List.mem_append_left _ hd1, ?_⟩
          rw [List.indexOf_append_of_mem hd1, List.indexOf_append_of_mem hx]
          exact hd2
        · rw [List.mem_singleton.mp hx] at hd ⊢
          have hd1 := hcurdeps d hd
          refine ⟨List.mem_append_left _ hd1, ?_⟩
          rw [List.indexOf_append_of_mem hd1,
            List.indexOf_append_of_not_mem hcurnd, List.indexOf_cons_self]
          have := List.indexOf_lt_length.mpr hd1
          omega
      have hres := ih (processDependents (buildAdj jobs cur) inDeg rest).2
        (processDependents (buildAdj jobs cur) inDeg rest).1
        (done ++ [cur]) hfuel₂ hdq₂ hsub₂ hdeg₂ hq₂ hord₂
      have hrw : done ++ kahnLoop (buildAdj jobs) (fuel + 1) (cur :: rest) inDeg
          = (done ++ [cur]) ++ kahnLoop (buildAdj jobs) fuel
              (processDependents (buildAdj jobs cur) inDeg rest).2
              (processDependents (buildAdj jobs cur) inDeg rest).1 := by
        rw [hstep]
        simp
      rw [hrw]
      exact hres

/-! ### From an inescapable set of nodes to a directed cycle -/

theorem chain_of_iterate (R : String → String → Prop) (g : String → String) (x₀ : String)
    (hstepR : ∀ n, R (g^[n] x₀) (g^[n + 1] x₀)) :
    ∀ (k m : Nat), List.Chain R (g^[m] x₀)
      (((List.range k).map (fun t => g^[m + 1 + t] x₀)) ++ [g^[m + 1 + k] x₀]) := by
  intro k
  induction k with
  | zero =>
    intro m
    simp only [List.range_zero, List.map_nil, List.nil_append]
    exact List.Chain.cons (by simpa using hstepR m) List.Chain.nil
  | succ k ihk =>
    intro m
    rw [List.range_succ_eq_map]
    simp only [List.map_cons, List.map_map]
    have hfun : ((fun t => g^[m + 1 + t] x₀) ∘ Nat.succ) = (fun t => g^[m + 1 + 1 + t] x₀) := by
      funext t
      simp only [Function.comp_apply]
      congr 1
      omega
    have hlast : m + 1 + (k + 1) = m + 1 + 1 + k := by omega
    rw [hfun, hlast]
    refine List.Chain.cons (by simpa using hstepR m) ?_
    have := ihk (m + 1)
    simpa using this

theorem hasCycleIn_of_succ (jobs : List (String × Job)) (S : List String)
    (x₀ : String) (hx₀ : x₀ ∈ S)
    (hstep : ∀ x ∈ S, ∃ d, d ∈ S ∧ edgeB jobs x d = true) : hasCycleIn jobs := by
  classical
  have hf : ∀ x : String, ∃ y : String, x ∈ S → y ∈ S ∧ edgeB jobs x y = true := by
    intro x
    by_cases hx : x ∈ S
    · obtain ⟨d, hd⟩ := hstep x hx
      exact ⟨d, fun _ => hd⟩
    · exact ⟨x, fun hc => absurd hc hx⟩
  choose f hfs using hf
  have hiter : ∀ n, f^[n] x₀ ∈ S := by
    intro n
    induction n with
    | zero => simpa using hx₀
    | succ n ihn =>
      rw [Function.iterate_succ_apply']
      exact (hfs _ ihn).1
  have hedge : ∀ n, edgeB jobs (f^[n] x₀) (f^[n + 1] x₀) = true := by
    intro n
    rw [Function.iterate_succ_apply']
    exact (hfs _ (hiter n)).2
  have hmaps : ∀ n ∈ Finset.range (S.toFinset.card + 1), f^[n] x₀ ∈ S.toFinset :=
    fun n _ => List.mem_toFinset.mpr (hiter n)
  have hcard : S.toFinset.card < (Finset.range (S.toFinset.card + 1)).card := by simp
  obtain ⟨i, hi, j, hj, hij, heq⟩ :=
    Finset.exists_ne_map_eq_of_card_lt_of_maps_to hcard hmaps
  have main : ∀ a b : Nat, a < b → f^[a] x₀ = f^[b] x₀ → hasCycleIn jobs := by
    intro a b hab hfeq
    refine ⟨f^[a] x₀, (List.range (b - a - 1)).map (fun t => f^[a + 1 + t] x₀), ?_⟩
    have hchain := chain_of_iterate (fun u v => edgeB jobs u v = true) f x₀ hedge
      (b - a - 1) a
    have hidx : a + 1 + (b - a - 1) = b := by omega
    rw [hidx] at hchain
    rwa [← hfeq] at hchain
  rcases Ne.lt_or_lt hij with h | h
  · exact main i j h heq
  · exact main j i h heq.symm

/-! ### Top-level properties of resolveDependencies -/

theorem resolveDependencies_eq (jobs : List (String × Job)) :
    resolveDependencies jobs = kahnLoop (buildAdj jobs)
      ((initQueue jobs).length + sumPos (buildInDeg jobs)) (initQueue jobs)
      (buildInDeg jobs) := rfl

/-- Summary of the Kahn-loop invariant at the real entry point: the resolved
order is duplicate-free, mentions only registered names, places every job
after its dependencies, and any registered name left out has a dependency
that is also left out. -/
theorem resolveDependencies_main (jobs : List (String × Job))
    (hnd : (mapKeys jobs).Nodup) :
    (resolveDependencies jobs).Nodup ∧
      (∀ x ∈ resolveDependencies jobs, x ∈ mapKeys jobs) ∧
      (∀ x ∈ resolveDependencies jobs, ∀ d ∈ depsOf jobs x,
        d ∈ resolveDependencies jobs ∧
          (resolveDependencies jobs).indexOf d < (resolveDependencies jobs).indexOf x) ∧
      (∀ k ∈ mapKeys jobs, k ∉ resolveDependencies jobs →
        ∃ d ∈ depsOf jobs k, d ∉ resolveDependencies jobs) := by
  have h := kahn_invariant jobs hnd
    ((initQueue jobs).length + sumPos (buildInDeg jobs)) (initQueue jobs)
    (buildInDeg jobs) [] (le_refl _)
    (by simpa using initQueue_nodup jobs hnd)
    (by
      intro x hx
      simp only [List.nil_append] at hx
      exact ((mem_initQueue jobs hnd x).mp hx).1)
    (by
      intro k hk
      rw [degOf_buildInDeg jobs hnd k]
      congr 1
      have : ∀ d : String, (!(decide (d ∈ ([] : List String)))) = true := by
        intro d; simp
      rw [List.countP_eq_length.mpr (fun d _ => this d)]
    )
    (by
      intro k hk _
      rw [mem_initQueue jobs hnd k]
      constructor
      · rintro ⟨_, hdeps⟩ d hd
        rw [hdeps] at hd
        exact absurd hd (List.not_mem_nil d)
      · intro hall
        refine ⟨hk, ?_⟩
        cases hdeps : depsOf jobs k with
        | nil => rfl
        | cons d rest =>
          exact absurd (by simpa using hall d (by rw [hdeps]; simp))
            (List.not_mem_nil d))
    (by intro x hx; exact absurd hx (List.not_mem_nil x))
  rw [← resolveDependencies_eq] at h
  simpa using h

/-- Under a closed, acyclic graph the Kahn loop emits every registered job. -/
theorem resolveDependencies_complete (jobs : List (String × Job))
    (hnd : (mapKeys jobs).Nodup)
    (hclosed : ∀ p ∈ jobs, ∀ d ∈ p.2.dependencies, d ∈ mapKeys jobs)
    (hacyclic : ¬ hasCycleIn jobs) :
    ∀ k ∈ mapKeys jobs, k ∈ resolveDependencies jobs := by
  by_contra hcon
  push_neg at hcon
  obtain ⟨k₀, hk₀, hk₀not⟩ := hcon
  obtain ⟨_, _, _, hstuck⟩ := resolveDependencies_main jobs hnd
  apply hacyclic
  apply hasCycleIn_of_succ jobs
    ((mapKeys jobs).filter (fun k => !(decide (k ∈ resolveDependencies jobs)))) k₀
    (by simp [List.mem_filter, hk₀, hk₀not])
  intro x hx
  rw [List.mem_filter] at hx
  have hxk : x ∈ mapKeys jobs := hx.1
  have hxnot : x ∉ resolveDependencies jobs := by simpa using hx.2
  obtain ⟨d, hd, hdnot⟩ := hstuck x hxk hxnot
  obtain ⟨jb, hjb⟩ := Option.isSome_iff_exists.mp ((mapGet_isSome_iff jobs x).mpr hxk)
  have hdk : d ∈ mapKeys jobs := by
    apply hclosed (x, jb) (mapGet_mem jobs x jb hjb) d
    simpa [depsOf, hjb] using hd
  refine ⟨d, by simp [List.mem_filter, hdk, hdnot], ?_⟩
  simp only [edgeB, hjb]
  have : d ∈ jb.dependencies := by simpa [depsOf, hjb] using hd
  simpa using this

/-! ### A rank function certifies acyclicity -/

theorem rank_chain (jobs : List (String × Job)) (r : String → Nat)
    (hrank : ∀ p ∈ jobs, ∀ d ∈ p.2.dependencies, r d < r p.1) :
    ∀ (ys : List String) (x : String),
      List.Chain (fun a b => edgeB jobs a b = true) x ys →
      ∀ z, ys.getLast? = some z → r z < r x := by
  intro ys
  induction ys with
  | nil => intro x _ z hz; simp at hz
  | cons y ys ih =>
    intro x hchain z hz
    rcases List.chain_cons.mp hchain with ⟨hxy, hrest⟩
    have hstep : r y < r x := by
      unfold edgeB at hxy
      rcases hg : mapGet jobs x with _ | jb
      · rw [hg] at hxy; simp at hxy
      · rw [hg] at hxy
        have hy : y ∈ jb.dependencies := by simpa using hxy
        exact hrank (x, jb) (mapGet_mem jobs x jb hg) y hy
    cases ys with
    | nil =>
      simp only [List.getLast?_singleton, Option.some.injEq] at hz
      rw [hz] at hstep
      exact hstep
    | cons y₂ t =>
      rw [List.getLast?_cons_cons] at hz
      exact lt_trans (ih y hrest z hz) hstep

theorem acyclic_of_rank (jobs : List (String × Job)) (r : String → Nat)
    (hrank : ∀ p ∈ jobs, ∀ d ∈ p.2.dependencies, r d < r p.1) :
    ¬ hasCycleIn jobs := by
  rintro ⟨x, l, hchain⟩
  have hlast : (l ++ [x]).getLast? = some x := List.getLast?_concat l
  have := rank_chain jobs r hrank (l ++ [x]) x hchain x hlast
  omega

/-! ### Claim C2: topological validity of the resolved order -/

/-- C2: for every registry with duplicate-free keys whose dependency graph is
closed (all dependency names registered) and acyclic — duplicate entries
inside a dependency list are tolerated — getExecutionOrder returns a
sequence containing every registered job name exactly once (a permutation
of the keys), in which every dependency of a job precedes that job. -/
theorem getExecutionOrder_topological (jobs : List (String × Job))
    (hnd : (mapKeys jobs).Nodup)
    (hclosed : ∀ p ∈ jobs, ∀ d ∈ p.2.dependencies, d ∈ mapKeys jobs)
    (hacyclic : ¬ hasCycleIn jobs) :
    (getExecutionOrder jobs).Perm (mapKeys jobs) ∧
      ∀ p ∈ jobs, ∀ d ∈ p.2.dependencies,
        (getExecutionOrder jobs).indexOf d < (getExecutionOrder jobs).indexOf p.1 := by
  obtain ⟨hnodup, hsub, hord, _⟩ := resolveDependencies_main jobs hnd
  have hcomp := resolveDependencies_complete jobs hnd hclosed hacyclic
  simp only [getExecutionOrder]
  constructor
  · rw [List.perm_ext_iff_of_nodup hnodup hnd]
    exact fun a => ⟨fun ha => hsub a ha, fun ha => hcomp a ha⟩
  · intro p hp d hd
    have hp1 : p.1 ∈ mapKeys jobs := List.mem_map.mpr ⟨p, hp, rfl⟩
    have hget : mapGet jobs p.1 = some p.2 := mapGet_of_mem_nodup jobs p hnd hp
    have hdeps : depsOf jobs p.1 = p.2.dependencies := by simp [depsOf, hget]
    exact (hord p.1 (hcomp p.1 hp1) d (by rw [hdeps]; exact hd)).2

/-- Witness for getExecutionOrder_topological on the concrete A → B → C chain. -/
theorem getExecutionOrder_topological_witness :
    ((mapKeys exJobs).Nodup ∧ (∀ p ∈ exJobs, ∀ d ∈ p.2.dependencies, d ∈ mapKeys exJobs)) ∧
      ((getExecutionOrder exJobs).Perm (mapKeys exJobs) ∧
        ∀ p ∈ exJobs, ∀ d ∈ p.2.dependencies,
          (getExecutionOrder exJobs).indexOf d < (getExecutionOrder exJobs).indexOf p.1) := by
  refine ⟨⟨by decide, by decide⟩, ?_⟩
  exact getExecutionOrder_topological exJobs (by decide) (by decide)
    (acyclic_of_rank exJobs exRank (by decide))

/-! ### Structure of the execution round -/

theorem roundLoop_names (jobs : List (String × Job)) (outcome : String → Option String)
    (dur : String → Nat) (l : List String) :
    ∀ c, (∀ n ∈ l, (mapGet jobs n).isSome) →
      (roundLoop jobs outcome dur l c).1.map JobResult.jobName = l.map some := by
  induction l with
  | nil => intro c _; simp [roundLoop]
  | cons n rest ih =>
    intro c hfound
    obtain ⟨job, hget⟩ := Option.isSome_iff_exists.mp (hfound n (by simp))
    simp only [roundLoop, hget]
    cases hfind : job.dependencies.find? (fun d => !(c.contains d)) with
    | some dep =>
      simp only [hfind, List.map_cons]
      rw [ih c (fun m hm => hfound m (by simp [hm]))]
    | none =>
      simp only [hfind, List.map_cons]
      rw [ih _ (fun m hm => hfound m (by simp [hm]))]

theorem roundLoop_append (jobs : List (String × Job)) (outcome : String → Option String)
    (dur : String → Nat) (l₁ l₂ : List String) :
    ∀ c, roundLoop jobs outcome dur (l₁ ++ l₂) c
      = ((roundLoop jobs outcome dur l₁ c).1
            ++ (roundLoop jobs outcome dur l₂ (roundLoop jobs outcome dur l₁ c).2.1).1,
         (roundLoop jobs outcome dur l₂ (roundLoop jobs outcome dur l₁ c).2.1).2.1,
         (roundLoop jobs outcome dur l₁ c).2.2
            ++ (roundLoop jobs outcome dur l₂ (roundLoop jobs outcome dur l₁ c).2.1).2.2) := by
  induction l₁ with
  | nil => intro c; simp [roundLoop]
  | cons n rest ih =>
    intro c
    simp only [List.cons_append, roundLoop]
    cases hget : mapGet jobs n with
    | none => simp only [hget]; exact ih c
    | some job =>
      simp only [hget]
      cases hfind : job.dependencies.find? (fun d => !(c.contains d)) with
      | some dep =>
        simp only [hfind, List.append_eq]
        rw [ih c]
        simp
      | none =>
        simp only [hfind, List.append_eq]
        rw [ih _]
        simp [List.cons_append]

theorem roundLoop_trace_subset (jobs : List (String × Job))
    (outcome : String → Option String) (dur : String → Nat) (l : List String) :
    ∀ c, ∀ x ∈ (roundLoop jobs outcome dur l c).2.2, x ∈ l := by
  induction l with
  | nil => intro c x hx; simp [roundLoop] at hx
  | cons n rest ih =>
    intro c x hx
    simp only [roundLoop] at hx
    cases hget : mapGet jobs n with
    | none =>
      simp only [hget] at hx
      exact List.mem_cons_of_mem n (ih c x hx)
    | some job =>
      simp only [hget] at hx
      cases hfind : job.dependencies.find? (fun d => !(c.contains d)) with
      | some dep =>
        simp only [hfind] at hx
        exact List.mem_cons_of_mem n (ih c x hx)
      | none =>
        simp only [hfind] at hx
        rcases List.mem_cons.mp hx with hx | hx
        · simp [hx]
        · exact List.mem_cons_of_mem n (ih _ x hx)

/-! ### Claim C7: one result per registered job, in topological order -/

/-- C7: a round that is not dropped by the re-entrancy guard produces exactly
one JobResult per registered job — the result names are the resolved order
(so none omitted, none duplicated), the resolved order is a permutation of
the registered names, and it lists every dependency before its dependent. -/
theorem executeRound_one_result_per_job (st : SchedulerState)
    (outcome : String → Option String) (dur : String → Nat)
    (hexec : st.isExecuting = false)
    (hnd : (mapKeys st.jobs).Nodup)
    (hclosed : ∀ p ∈ st.jobs, ∀ d ∈ p.2.dependencies, d ∈ mapKeys st.jobs)
    (hacyclic : ¬ hasCycleIn st.jobs) :
    ((executeJobsWithDependencies st outcome dur).1.map JobResult.jobName
        = (resolveDependencies st.jobs).map some) ∧
      (resolveDependencies st.jobs).Perm (mapKeys st.jobs) ∧
      ∀ p ∈ st.jobs, ∀ d ∈ p.2.dependencies,
        (resolveDependencies st.jobs).indexOf d
          < (resolveDependencies st.jobs).indexOf p.1 := by
  have hmain := getExecutionOrder_topological st.jobs hnd hclosed hacyclic
  simp only [getExecutionOrder] at hmain
  obtain ⟨_, hsub, _, _⟩ := resolveDependencies_main st.jobs hnd
  refine ⟨?_, hmain.1, hmain.2⟩
  simp only [executeJobsWithDependencies, hexec, Bool.false_eq_true, if_false]
  exact roundLoop_names st.jobs outcome dur (resolveDependencies st.jobs) []
    (fun n hn => (mapGet_isSome_iff st.jobs n).mpr (hsub n hn))

/-- Witness for executeRound_one_result_per_job on the A → B → C chain. -/
theorem executeRound_one_result_per_job_witness :
    (SchedulerState.isExecuting { jobs := exJobs } = false) ∧
      (((executeJobsWithDependencies { jobs := exJobs } (fun _ => none) (fun _ => 0)).1.map
            JobResult.jobName = (resolveDependencies exJobs).map some) ∧
        (resolveDependencies exJobs).Perm (mapKeys exJobs) ∧
        ∀ p ∈ exJobs, ∀ d ∈ p.2.dependencies,
          (resolveDependencies exJobs).indexOf d < (resolveDependencies exJobs).indexOf p.1) := by
  refine ⟨rfl, ?_⟩
  exact executeRound_one_result_per_job { jobs := exJobs } (fun _ => none) (fun _ => 0)
    rfl (by decide) (by decide) (acyclic_of_rank exJobs exRank (by decide))

/-! ### Claim C1: cascading skips within a round -/

/-- C1: within one non-dropped round, any job (at any position of the
resolved order) that has a declared dependency which did not complete
successfully earlier in that round — the completedJobs set of the prefix —
is not executed: its execute() never appears in the trace, and its
JobResult records success=false, dependenciesMet=false, executionTime=0
and a skippedReason naming the first missing dependency of the job's own
dependency list.  Because the quantification covers every such position,
the skip cascades transitively to all dependents within the round. -/
theorem executeRound_cascading_skip (st : SchedulerState)
    (outcome : String → Option String) (dur : String → Nat)
    (hexec : st.isExecuting = false) (hnd : (mapKeys st.jobs).Nodup)
    (pre suf : List String) (jobName : String) (job : Job)
    (horder : resolveDependencies st.jobs = pre ++ jobName :: suf)
    (hjob : mapGet st.jobs jobName = some job)
    (hmiss : ∃ d ∈ job.dependencies,
      d ∉ (roundLoop st.jobs outcome dur pre []).2.1) :
    ∃ dep,
      job.dependencies.find?
          (fun d => !((roundLoop st.jobs outcome dur pre []).2.1.contains d)) = some dep ∧
      dep ∈ job.dependencies ∧
      dep ∉ (roundLoop st.jobs outcome dur pre []).2.1 ∧
      (executeJobsWithDependencies st outcome dur).1
        = (roundLoop st.jobs outcome dur pre []).1
          ++ { success := false, jobName := some jobName, dependenciesMet := some false,
               skippedReason := some ("Dependency failed or was skipped: " ++ dep),
               executionTime := 0 }
            :: (roundLoop st.jobs outcome dur suf
                  (roundLoop st.jobs outcome dur pre []).2.1).1 ∧
      jobName ∉ (executeJobsWithDependencies st outcome dur).2.1 := by
  obtain ⟨d₀, hd₀, hd₀n⟩ := hmiss
  cases hfind : job.dependencies.find?
      (fun d => !((roundLoop st.jobs outcome dur pre []).2.1.contains d)) with
  | none =>
    exfalso
    have := List.find?_eq_none.mp hfind d₀ hd₀
    simp at this
    exact hd₀n this
  | some dep =>
    have hdep := List.find?_some hfind
    have hdepmem := List.mem_of_find?_eq_some hfind
    have hdepnot : dep ∉ (roundLoop st.jobs outcome dur pre []).2.1 := by
      simpa using hdep
    have hordnodup := (resolveDependencies_main st.jobs hnd).1
    rw [horder] at hordnodup
    have hjpre : jobName ∉ pre := by
      rcases List.nodup_append.mp hordnodup with ⟨_, _, hdisj⟩
      exact fun hc => hdisj hc (by simp)
    have hjsuf : jobName ∉ suf := by
      rcases List.nodup_append.mp hordnodup with ⟨_, hcons, _⟩
      exact (List.nodup_cons.mp hcons).1
    refine ⟨dep, rfl, hdepmem, hdepnot, ?_, ?_⟩
    · simp only [executeJobsWithDependencies, hexec, Bool.false_eq_true, if_false]
      rw [horder, roundLoop_append]
      simp only [roundLoop, hjob, hfind]
    · simp only [executeJobsWithDependencies, hexec, Bool.false_eq_true, if_false]
      rw [horder, roundLoop_append]
      simp only [roundLoop, hjob, hfind]
      intro hmem
      rcases List.mem_append.mp hmem with hmem | hmem
      · exact hjpre (roundLoop_trace_subset st.jobs outcome dur pre [] jobName hmem)
      · exact hjsuf (roundLoop_trace_subset st.jobs outcome dur suf _ jobName hmem)

/-- Witness for executeRound_cascading_skip: A throws, B gets skipped, and C
is skipped with a skippedReason naming B (its own immediate dependency),
not the root cause A. -/
theorem executeRound_cascading_skip_witness :
    (resolveDependencies exJobs = ["A", "B"] ++ "C" :: [] ∧
      mapGet exJobs "C" = some exC ∧
      (∃ d ∈ exC.dependencies,
        d ∉ (roundLoop exJobs exOutcomeFailA exDur ["A", "B"] []).2.1)) ∧
    (∃ dep,
      exC.dependencies.find?
          (fun d => !((roundLoop exJobs exOutcomeFailA exDur ["A", "B"] []).2.1.contains d))
            = some dep ∧
      dep ∈ exC.dependencies ∧
      dep ∉ (roundLoop exJobs exOutcomeFailA exDur ["A", "B"] []).2.1 ∧
      (executeJobsWithDependencies { jobs := exJobs } exOutcomeFailA exDur).1
        = (roundLoop exJobs exOutcomeFailA exDur ["A", "B"] []).1
          ++ { success := false, jobName := some "C", dependenciesMet := some false,
               skippedReason := some ("Dependency failed or was skipped: " ++ dep),
               executionTime := 0 }
            :: (roundLoop exJobs exOutcomeFailA exDur []
                  (roundLoop exJobs exOutcomeFailA exDur ["A", "B"] []).2.1).1 ∧
      "C" ∉ (executeJobsWithDependencies { jobs := exJobs } exOutcomeFailA exDur).2.1) := by
  refine ⟨⟨by decide, by decide, by decide⟩, ?_⟩
  exact executeRound_cascading_skip { jobs := exJobs } exOutcomeFailA exDur rfl
    (by decide) ["A", "B"] [] "C" exC (by decide) (by decide) (by decide)

/-! ### Claim C9: a thrown error is caught and the round continues -/

/-- C9: when a job whose dependencies are all met throws, the error is
caught inside the round: the job's JobResult records success=false with the
error attached and the measured duration, the loop then continues with the
remaining jobs of the order (whose results follow in the same list, the
completed set unchanged), and the round still returns one result per
ordered job — the thrown error never propagates out of
executeJobsWithDependencies, which is a total function in this model. -/
theorem executeRound_error_recovery (st : SchedulerState)
    (outcome : String → Option String) (dur : String → Nat)
    (hexec : st.isExecuting = false) (hnd : (mapKeys st.jobs).Nodup)
    (pre suf : List String) (jobName : String) (job : Job)
    (horder : resolveDependencies st.jobs = pre ++ jobName :: suf)
    (hjob : mapGet st.jobs jobName = some job)
    (hmet : job.dependencies.find?
      (fun d => !((roundLoop st.jobs outcome dur pre []).2.1.contains d)) = none)
    (err : String) (hthrow : outcome jobName = some err) :
    (executeJobsWithDependencies st outcome dur).1
      = (roundLoop st.jobs outcome dur pre []).1
        ++ { success := false, error := some err, executionTime := dur jobName,
             jobName := some jobName, dependenciesMet := some true }
          :: (roundLoop st.jobs outcome dur suf
                (roundLoop st.jobs outcome dur pre []).2.1).1 ∧
    (executeJobsWithDependencies st outcome dur).1.length
      = (resolveDependencies st.jobs).length := by
  have hexecjob : executeJob st.jobs outcome dur jobName
      = { success := false, error := some err, executionTime := dur jobName } := by
    simp [executeJob, hjob, hthrow]
  constructor
  · simp only [executeJobsWithDependencies, hexec, Bool.false_eq_true, if_false]
    rw [horder, roundLoop_append]
    simp only [roundLoop, hjob, hmet, hexecjob]
    simp
  · simp only [executeJobsWithDependencies, hexec, Bool.false_eq_true, if_false]
    have hsub := (resolveDependencies_main st.jobs hnd).2.1
    have hnames := roundLoop_names st.jobs outcome dur (resolveDependencies st.jobs) []
      (fun n hn => (mapGet_isSome_iff st.jobs n).mpr (hsub n hn))
    have := congrArg List.length hnames
    simpa using this

/-- Witness for executeRound_error_recovery: A succeeds and B throws; B's
entry carries the error, and C's entry still follows in the same list. -/
theorem executeRound_error_recovery_witness :
    (resolveDependencies exJobs = ["A"] ++ "B" :: ["C"] ∧
      mapGet exJobs "B" = some exB ∧
      exB.dependencies.find?
        (fun d => !((roundLoop exJobs exOutcomeFailB exDur ["A"] []).2.1.contains d)) = none ∧
      exOutcomeFailB "B" = some "boom") ∧
    ((executeJobsWithDependencies { jobs := exJobs } exOutcomeFailB exDur).1
        = (roundLoop exJobs exOutcomeFailB exDur ["A"] []).1
          ++ { success := false, error := some "boom", executionTime := exDur "B",
               jobName := some "B", dependenciesMet := some true }
            :: (roundLoop exJobs exOutcomeFailB exDur ["C"]
                  (roundLoop exJobs exOutcomeFailB exDur ["A"] []).2.1).1 ∧
      (executeJobsWithDependencies { jobs := exJobs } exOutcomeFailB exDur).1.length
        = (resolveDependencies exJobs).length) := by
  refine ⟨⟨by decide, by decide, by decide, by decide⟩, ?_⟩
  exact executeRound_error_recovery { jobs := exJobs } exOutcomeFailB exDur rfl
    (by decide) ["A"] ["C"] "B" exB (by decide) (by decide) (by decide) "boom" (by decide)

/-! ### The schedule-group bookkeeping -/

theorem mapKeys_mapUpdate {α : Type} (m : List (String × α)) (k : String) (f : α → α) :
    mapKeys (mapUpdate m k f) = mapKeys m := by
  induction m with
  | nil => rfl
  | cons p rest ih =>
    obtain ⟨k₁, v⟩ := p
    by_cases h : k₁ = k
    · simp [mapUpdate, mapKeys, h]
    · simp only [mapUpdate, h, if_false, mapKeys, List.map_cons]
      simp only [mapKeys] at ih
      rw [ih]

theorem mapUpdate_not_mem {α : Type} (m : List (String × α)) (k : String) (f : α → α)
    (h : k ∉ mapKeys m) : mapUpdate m k f = m := by
  induction m with
  | nil => rfl
  | cons p rest ih =>
    obtain ⟨k₁, v⟩ := p
    simp only [mapKeys, List.map_cons, List.mem_cons] at h
    push_neg at h
    have h₁ : k₁ ≠ k := fun hc => h.1 hc.symm
    simp [mapUpdate, h₁, ih (by simpa [mapKeys] using h.2)]

theorem mem_mapUpdate_nodup {α : Type} (m : List (String × α)) (k : String) (f : α → α)
    (hnd : (mapKeys m).Nodup) (hk : k ∈ mapKeys m) :
    ∀ p ∈ mapUpdate m k f, (p ∈ m ∧ p.1 ≠ k) ∨ ∃ g, (k, g) ∈ m ∧ p = (k, f g) := by
  induction m with
  | nil => intro p hp; simp [mapUpdate] at hp
  | cons q rest ih =>
    obtain ⟨k₁, v⟩ := q
    intro p hp
    simp only [mapKeys, List.map_cons, List.nodup_cons] at hnd
    by_cases h : k₁ = k
    · subst h
      simp only [mapUpdate, if_pos rfl] at hp
      rcases List.mem_cons.mp hp with hp | hp
      · exact Or.inr ⟨v, by simp, hp⟩
      · refine Or.inl ⟨List.mem_cons_of_mem _ hp, ?_⟩
        intro hc
        exact hnd.1 (hc ▸ List.mem_map.mpr ⟨p, hp, rfl⟩)
    · have hk₂ : k ∈ mapKeys rest := by
        simp only [mapKeys, List.map_cons, List.mem_cons] at hk
        rcases hk with hk | hk
        · exact absurd hk.symm h
        · exact hk
      simp only [mapUpdate, h, if_false] at hp
      rcases List.mem_cons.mp hp with hp | hp
      · subst hp
        exact Or.inl ⟨by simp, fun hc => h hc⟩
      · rcases ih hnd.2 hk₂ p hp with ⟨h1, h2⟩ | ⟨g, hg, hpe⟩
        · exact Or.inl ⟨List.mem_cons_of_mem _ h1, h2⟩
        · exact Or.inr ⟨g, List.mem_cons_of_mem _ hg, hpe⟩

theorem setAdd_ne_nil (g : List String) (name : String) : setAdd g name ≠ [] := by
  unfold setAdd
  by_cases h : name ∈ g
  · simp only [h, if_true, reduceIte]
    intro hc
    rw [hc] at h
    exact List.not_mem_nil name h
  · simp [h]

theorem schedInvariant_addToSchedule (st : SchedulerState) (expr name : String)
    (h : schedInvariant st) : schedInvariant (addToSchedule st expr name) := by
  obtain ⟨ht, hn, hv⟩ := h
  unfold addToSchedule
  by_cases hmem : (mapGet st.scheduleToJobs expr).isSome
  · simp only [hmem, if_true, reduceIte]
    have hk : expr ∈ mapKeys st.scheduleToJobs := (mapGet_isSome_iff _ _).mp hmem
    refine ⟨by rw [mapKeys_mapUpdate]; exact ht, by rw [mapKeys_mapUpdate]; exact hn, ?_⟩
    intro p hp
    rcases mem_mapUpdate_nodup _ _ _ hn hk p hp with ⟨h1, _⟩ | ⟨g, _, hpe⟩
    · exact hv p h1
    · rw [hpe]
      exact setAdd_ne_nil g name
  · simp only [hmem, Bool.false_eq_true, if_false, reduceIte]
    have hkn : expr ∉ mapKeys st.scheduleToJobs := fun hc =>
      hmem ((mapGet_isSome_iff _ _).mpr hc)
    have hkeys : mapKeys (st.scheduleToJobs ++ [(expr, ([] : List String))])
        = mapKeys st.scheduleToJobs ++ [expr] := by
      simp [mapKeys]
    have hnd₂ : (mapKeys (st.scheduleToJobs ++ [(expr, ([] : List String))])).Nodup := by
      rw [hkeys]
      rw [List.nodup_append]
      exact ⟨hn, List.nodup_singleton expr, by
        intro a ha hc
        rw [List.mem_singleton.mp hc] at ha
        exact hkn ha⟩
    have hk₂ : expr ∈ mapKeys (st.scheduleToJobs ++ [(expr, ([] : List String))]) := by
      rw [hkeys]; simp
    refine ⟨?_, by rw [mapKeys_mapUpdate]; exact hnd₂, ?_⟩
    · rw [mapKeys_mapUpdate, hkeys, ht]
    · intro p hp
      rcases mem_mapUpdate_nodup _ _ _ hnd₂ hk₂ p hp with ⟨h1, h2⟩ | ⟨g, hg, hpe⟩
      · rcases List.mem_append.mp h1 with h1 | h1
        · exact hv p h1
        · exact absurd (congrArg Prod.fst (List.mem_singleton.mp h1)) h2
      · rcases List.mem_append.mp hg with hg | hg
        · exact absurd (List.mem_map.mpr ⟨(expr, g), hg, rfl⟩) hkn
        · have : g = [] := (Prod.mk.injEq _ _ _ _).mp (List.mem_singleton.mp hg) |>.2
          rw [hpe, this]
          exact setAdd_ne_nil [] name

theorem schedInvariant_registerJob (cronValid : String → Bool) (st : SchedulerState)
    (job : Job) (expr : String) (validate : Bool) (h : schedInvariant st) :
    schedInvariant (registerJob cronValid st job expr validate).1 := by
  unfold registerJob
  by_cases hc : cronValid expr
  · simp only [hc, Bool.not_true, Bool.false_eq_true, if_false]
    cases hv : (if validate then
        validateJobDependencies (mapSet st.jobs job.name job) job else none) with
    | some e => simpa [hv] using h
    | none =>
      simp only [hv]
      exact schedInvariant_addToSchedule _ expr job.name h
  · simp only [hc, Bool.not_false, if_true, reduceIte]
    exact h

theorem removeFromGroups_removed_sub (name : String) :
    ∀ groups : List (String × List String),
      ∀ e ∈ (removeFromGroups groups name).2, e ∈ mapKeys groups := by
  intro groups
  induction groups with
  | nil => intro e he; simp [removeFromGroups] at he
  | cons q rest ih =>
    obtain ⟨expr, grp⟩ := q
    intro e he
    by_cases h : name ∈ grp
    · by_cases h2 : (grp.erase name).isEmpty
      · simp only [removeFromGroups, h, if_true, h2, reduceIte] at he
        simp only [List.mem_singleton.mp he, mapKeys, List.map_cons]
        simp
      · simp only [removeFromGroups, h, if_true, h2, Bool.false_eq_true, if_false,
          reduceIte] at he
        simp at he
    · simp only [removeFromGroups, h, Bool.false_eq_true, if_false, reduceIte] at he
      exact List.mem_cons_of_mem _ (ih e he)

theorem removeFromGroups_removed_shape (name : String) :
    ∀ groups : List (String × List String),
      (removeFromGroups groups name).2 = [] ∨
        ∃ e, (removeFromGroups groups name).2 = [e] := by
  intro groups
  induction groups with
  | nil => exact Or.inl rfl
  | cons q rest ih =>
    obtain ⟨expr, grp⟩ := q
    by_cases h : name ∈ grp
    · by_cases h2 : (grp.erase name).isEmpty
      · exact Or.inr ⟨expr, by simp [removeFromGroups, h, h2]⟩
      · exact Or.inl (by simp [removeFromGroups, h, h2])
    · rcases ih with hih | ⟨e, hih⟩
      · exact Or.inl (by simp [removeFromGroups, h, hih])
      · exact Or.inr ⟨e, by simp [removeFromGroups, h, hih]⟩

theorem removeFromGroups_keys_sublist (name : String) :
    ∀ groups : List (String × List String),
      (mapKeys (removeFromGroups groups name).1).Sublist (mapKeys groups) := by
  intro groups
  induction groups with
  | nil => simp [removeFromGroups]
  | cons q rest ih =>
    obtain ⟨expr, grp⟩ := q
    by_cases h : name ∈ grp
    · by_cases h2 : (grp.erase name).isEmpty
      · simp only [removeFromGroups, h, if_true, h2, reduceIte, mapKeys, List.map_cons]
        exact (List.Sublist.refl _).cons expr
      · simp only [removeFromGroups, h, if_true, h2, Bool.false_eq_true, if_false,
          reduceIte, mapKeys, List.map_cons]
        exact (List.Sublist.refl _).cons₂ expr
    · simp only [removeFromGroups, h, Bool.false_eq_true, if_false, reduceIte,
        mapKeys, List.map_cons]
      exact ih.cons₂ expr

theorem removeFromGroups_tasks (name : String) :
    ∀ groups : List (String × List String), (mapKeys groups).Nodup →
      (removeFromGroups groups name).2.foldl (fun t e => t.erase e) (mapKeys groups)
        = mapKeys (removeFromGroups groups name).1 := by
  intro groups
  induction groups with
  | nil => intro _; simp [removeFromGroups]
  | cons q rest ih =>
    obtain ⟨expr, grp⟩ := q
    intro hnd
    simp only [mapKeys, List.map_cons, List.nodup_cons] at hnd
    by_cases h : name ∈ grp
    · by_cases h2 : (grp.erase name).isEmpty
      · simp only [removeFromGroups, h, if_true, h2, reduceIte, mapKeys, List.map_cons,
          List.foldl_cons, List.foldl_nil, List.erase_cons_head]
      · simp only [removeFromGroups, h, if_true, h2, Bool.false_eq_true, if_false,
          reduceIte, mapKeys, List.map_cons, List.foldl_nil]
    · simp only [removeFromGroups, h, Bool.false_eq_true, if_false, reduceIte,
        mapKeys, List.map_cons]
      rcases removeFromGroups_removed_shape name rest with hsh | ⟨e, hsh⟩
      · have := ih hnd.2
        simp only [mapKeys] at this
        rw [hsh] at this ⊢
        simp only [List.foldl_nil] at this ⊢
        rw [this]
      · have hmem := removeFromGroups_removed_sub name rest e (by rw [hsh]; simp)
        have hne : expr ≠ e := fun hc => hnd.1 (by rw [hc]; simpa [mapKeys] using hmem)
        have := ih hnd.2
        simp only [mapKeys] at this
        rw [hsh] at this ⊢
        simp only [List.foldl_cons, List.foldl_nil] at this ⊢
        rw [List.erase_cons_tail]
        · rw [this]
        · simp only [beq_iff_eq]
          exact hne

theorem removeFromGroups_vals (name : String) :
    ∀ groups : List (String × List String), (∀ p ∈ groups, p.2 ≠ []) →
      ∀ p ∈ (removeFromGroups groups name).1, p.2 ≠ [] := by
  intro groups
  induction groups with
  | nil => intro _ p hp; simp [removeFromGroups] at hp
  | cons q rest ih =>
    obtain ⟨expr, grp⟩ := q
    intro hv p hp
    by_cases h : name ∈ grp
    · by_cases h2 : (grp.erase name).isEmpty
      · simp only [removeFromGroups, h, if_true, h2, reduceIte] at hp
        exact hv p (List.mem_cons_of_mem _ hp)
      · simp only [removeFromGroups, h, if_true, h2, Bool.false_eq_true, if_false,
          reduceIte] at hp
        rcases List.mem_cons.mp hp with hp | hp
        · rw [hp]
          intro hc
          apply h2
          have hc₂ : grp.erase name = [] := hc
          rw [hc₂]
          rfl
        · exact hv p (List.mem_cons_of_mem _ hp)
    · simp only [removeFromGroups, h, Bool.false_eq_true, if_false, reduceIte] at hp
      rcases List.mem_cons.mp hp with hp | hp
      · rw [hp]
        exact hv (expr, grp) (by simp)
      · exact ih (fun p₂ hp₂ => hv p₂ (List.mem_cons_of_mem _ hp₂)) p hp

theorem schedInvariant_removeJob (st : SchedulerState) (name : String)
    (h : schedInvariant st) : schedInvariant (removeJob st name).1 := by
  obtain ⟨ht, hn, hv⟩ := h
  refine ⟨?_, ?_, ?_⟩
  · show (removeFromGroups st.scheduleToJobs name).2.foldl (fun t e => t.erase e)
        st.scheduledTasks = mapKeys (removeFromGroups st.scheduleToJobs name).1
    rw [ht]
    exact removeFromGroups_tasks name st.scheduleToJobs hn
  · exact ((removeFromGroups_keys_sublist name st.scheduleToJobs).nodup) hn
  · exact removeFromGroups_vals name st.scheduleToJobs hv

theorem schedInvariant_applyOps (cronValid : String → Bool) (ops : List SchedOp) :
    schedInvariant (applyOps cronValid ops) := by
  suffices h : ∀ (l : List SchedOp) (st : SchedulerState), schedInvariant st →
      schedInvariant (l.foldl (applyOp cronValid) st) by
    exact h ops {} ⟨rfl, List.nodup_nil, by simp⟩
  intro l
  induction l with
  | nil => intro st hst; exact hst
  | cons op rest ih =>
    intro st hst
    rw [List.foldl_cons]
    apply ih
    cases op with
    | register job expr validate => exact schedInvariant_registerJob cronValid st job expr validate hst
    | remove name => exact schedInvariant_removeJob st name hst

theorem removeFromGroups_split (name expr : String) :
    ∀ (g₁ g₂ : List (String × List String)), (∀ p ∈ g₁, name ∉ p.2) →
      removeFromGroups (g₁ ++ (expr, [name]) :: g₂) name = (g₁ ++ g₂, [expr]) := by
  intro g₁
  induction g₁ with
  | nil =>
    intro g₂ _
    simp [removeFromGroups, List.erase_cons_head]
  | cons q rest ih =>
    obtain ⟨e, g⟩ := q
    intro g₂ hfirst
    have hng : name ∉ g := hfirst (e, g) (by simp)
    simp only [List.cons_append, removeFromGroups, hng, Bool.false_eq_true, if_false,
      reduceIte, List.append_eq]
    rw [ih g₂ (fun p hp => hfirst p (List.mem_cons_of_mem _ hp))]

/-! ### Claim C8: one scheduled task per populated cron expression -/

/-- C8: after every sequence of registerJob and removeJob calls (failed
registrations included), the scheduled-task map holds exactly one task per
distinct cron expression that currently has at least one job name in its
schedule group — the task keys are exactly the group keys, duplicate-free,
and every group is nonempty; moreover, when removeJob empties a group (the
first group containing the name consists of that name alone), the group's
expression loses both its task and its group entry. -/
theorem scheduler_single_task_per_expression :
    (∀ (cronValid : String → Bool) (ops : List SchedOp),
        schedInvariant (applyOps cronValid ops)) ∧
    (∀ (st : SchedulerState) (name expr : String)
        (g₁ g₂ : List (String × List String)),
        schedInvariant st →
        st.scheduleToJobs = g₁ ++ (expr, [name]) :: g₂ →
        (∀ p ∈ g₁, name ∉ p.2) →
        expr ∉ (removeJob st name).1.scheduledTasks ∧
          mapGet (removeJob st name).1.scheduleToJobs expr = none) := by
  refine ⟨schedInvariant_applyOps, ?_⟩
  intro st name expr g₁ g₂ h hsplit hfirst
  obtain ⟨ht, hn, _⟩ := h
  have hr : removeFromGroups st.scheduleToJobs name = (g₁ ++ g₂, [expr]) := by
    rw [hsplit]
    exact removeFromGroups_split name expr g₁ g₂ hfirst
  have hexprn : expr ∉ mapKeys g₁ ++ mapKeys g₂ := by
    have : (mapKeys (g₁ ++ (expr, [name]) :: g₂)).Nodup := by rw [← hsplit]; exact hn
    simp only [mapKeys, List.map_append, List.map_cons] at this
    intro hc
    rcases List.mem_append.mp hc with hc | hc
    · rcases List.nodup_append.mp this with ⟨_, _, hdisj⟩
      exact hdisj hc (by simp)
    · rcases List.nodup_append.mp this with ⟨_, hcons, _⟩
      exact (List.nodup_cons.mp hcons).1 hc
  constructor
  · show expr ∉ (removeFromGroups st.scheduleToJobs name).2.foldl
        (fun t e => t.erase e) st.scheduledTasks
    rw [hr]
    simp only [List.foldl_cons, List.foldl_nil]
    rw [ht]
    exact List.Nodup.not_mem_erase hn
  · show mapGet (removeFromGroups st.scheduleToJobs name).1 expr = none
    rw [hr]
    rw [mapGet_eq_none_iff]
    simpa [mapKeys] using hexprn

/-- Witness for scheduler_single_task_per_expression: two jobs registered
under the same expression leave the invariant intact (one shared task), and
removing the sole member of a singleton group discards its task and group. -/
theorem scheduler_single_task_per_expression_witness :
    schedInvariant (applyOps (fun _ => true)
        [SchedOp.register exA "0 * * * *" true, SchedOp.register exB "0 * * * *" true]) ∧
      schedInvariant exGroupState ∧
      "0 * * * *" ∉ (removeJob exGroupState "x").1.scheduledTasks ∧
      mapGet (removeJob exGroupState "x").1.scheduleToJobs "0 * * * *" = none := by
  refine ⟨scheduler_single_task_per_expression.1 (fun _ => true) _, by decide, ?_⟩
  exact scheduler_single_task_per_expression.2 exGroupState
    "x" "0 * * * *" [] [] (by decide) rfl (by simp)

/-! ### The DFS cycle detector: totality of the fuelled model -/

theorem edgeB_iff_mem_depsOf (jobs : List (String × Job)) (a b : String) :
    edgeB jobs a b = true ↔ b ∈ depsOf jobs a := by
  unfold edgeB depsOf
  rcases h : mapGet jobs a with _ | jb <;> simp

theorem mem_univNames_of_dep (jobs : List (String × Job)) (j d : String)
    (hd : d ∈ depsOf jobs j) : d ∈ univNames jobs := by
  unfold depsOf at hd
  rcases h : mapGet jobs j with _ | jb
  · rw [h] at hd; simp at hd
  · rw [h] at hd
    simp only [Option.map_some', Option.getD_some] at hd
    unfold univNames
    refine List.mem_append_right _ ?_
    exact List.mem_flatMap.mpr ⟨(j, jb), mapGet_mem jobs j jb h, hd⟩

theorem unvisited_mono (U vis vis' : List String) (h : ∀ x ∈ vis, x ∈ vis') :
    U.countP (fun x => !(decide (x ∈ vis'))) ≤ U.countP (fun x => !(decide (x ∈ vis))) := by
  apply List.countP_mono_left
  intro a _ ha
  simp only [Bool.not_eq_eq_eq_not, Bool.not_true, decide_eq_false_iff_not] at ha ⊢
  exact fun hmem => ha (h a hmem)

theorem unvisited_dec (U vis : List String) (j : String) (hj : j ∈ U) (hnv : j ∉ vis) :
    U.countP (fun x => !(decide (x ∈ vis ++ [j]))) < U.countP (fun x => !(decide (x ∈ vis))) := by
  have hsnoc := countP_snoc vis j hnv U
  have hcount : 0 < U.count j := List.count_pos_iff.mpr hj
  omega

theorem dfs_total (jobs : List (String × Job)) :
    ∀ fuel : Nat,
      (∀ (j : String) (vis stack : List String), j ∈ univNames jobs →
        (univNames jobs).countP (fun x => !(decide (x ∈ vis))) < fuel →
        ∃ b vis', dfsVisit jobs fuel j vis stack = some (b, vis') ∧
          (∀ x ∈ vis, x ∈ vis') ∧ (∀ x ∈ vis', x ∈ vis ∨ x ∈ univNames jobs)) ∧
      (∀ (ds vis stack : List String), (∀ d ∈ ds, d ∈ univNames jobs) →
        (univNames jobs).countP (fun x => !(decide (x ∈ vis))) < fuel →
        ∃ b vis', dfsVisit.go jobs fuel ds vis stack = some (b, vis') ∧
          (∀ x ∈ vis, x ∈ vis') ∧ (∀ x ∈ vis', x ∈ vis ∨ x ∈ univNames jobs)) := by
  intro fuel
  induction fuel using Nat.strong_induction_on with
  | _ fuel ih =>
    have hP : ∀ (j : String) (vis stack : List String), j ∈ univNames jobs →
        (univNames jobs).countP (fun x => !(decide (x ∈ vis))) < fuel →
        ∃ b vis', dfsVisit jobs fuel j vis stack = some (b, vis') ∧
          (∀ x ∈ vis, x ∈ vis') ∧ (∀ x ∈ vis', x ∈ vis ∨ x ∈ univNames jobs) := by
      intro j vis stack hj hm
      cases fuel with
      | zero => exact (Nat.not_lt_zero _ hm).elim
      | succ f =>
        by_cases hs : j ∈ stack
        · exact ⟨true, vis, by simp [dfsVisit, hs], fun x hx => hx, fun x hx => Or.inl hx⟩
        · by_cases hv : j ∈ vis
          · exact ⟨false, vis, by simp [dfsVisit, hs, hv], fun x hx => hx,
              fun x hx => Or.inl hx⟩
          · have hdec := unvisited_dec (univNames jobs) vis j hj hv
            obtain ⟨b, vis', hgo, hmono, hnew⟩ := (ih f (by omega)).2 (depsOf jobs j)
              (vis ++ [j]) (stack ++ [j])
              (fun d hd => mem_univNames_of_dep jobs j d hd) (by omega)
            refine ⟨b, vis', by simp [dfsVisit, hs, hv, hgo], ?_, ?_⟩
            · intro x hx; exact hmono x (by simp [hx])
            · intro x hx
              rcases hnew x hx with hx2 | hx2
              · rcases List.mem_append.mp hx2 with h3 | h3
                · exact Or.inl h3
                · rw [List.mem_singleton.mp h3]; exact Or.inr hj
              · exact Or.inr hx2
    refine ⟨hP, ?_⟩
    intro ds
    induction ds with
    | nil =>
      intro vis stack _ _
      exact ⟨false, vis, by cases fuel <;> simp [dfsVisit.go], fun x hx => hx,
        fun x hx => Or.inl hx⟩
    | cons d rest ihd =>
      intro vis stack hds hm
      obtain ⟨b, v₁, hdv, hmono₁, hnew₁⟩ := hP d vis stack (hds d (by simp)) hm
      cases b with
      | true =>
        exact ⟨true, v₁, by cases fuel <;> simp_all [dfsVisit.go], hmono₁, hnew₁⟩
      | false =>
        have hm₂ : (univNames jobs).countP (fun x => !(decide (x ∈ v₁))) < fuel :=
          lt_of_le_of_lt (unvisited_mono _ vis v₁ hmono₁) hm
        obtain ⟨b₂, v₂, hgo₂, hmono₂, hnew₂⟩ := ihd v₁ stack
          (fun d₂ hd₂ => hds d₂ (by simp [hd₂])) hm₂
        refine ⟨b₂, v₂, by cases fuel <;> simp_all [dfsVisit.go], ?_, ?_⟩
        · exact fun x hx => hmono₂ x (hmono₁ x hx)
        · intro x hx
          rcases hnew₂ x hx with h3 | h3
          · exact hnew₁ x h3
          · exact Or.inr h3

/-! ### DFS soundness: a reported cycle is a real cycle -/

theorem dfs_sound (jobs : List (String × Job)) :
    ∀ fuel : Nat,
      (∀ (j : String) (vis stack vis' : List String),
        List.Chain' (fun a b => edgeB jobs a b = true) (stack ++ [j]) →
        dfsVisit jobs fuel j vis stack = some (true, vis') → hasCycleIn jobs) ∧
      (∀ (ds vis stack vis' : List String) (j : String),
        List.Chain' (fun a b => edgeB jobs a b = true) (stack ++ [j]) →
        (∀ d ∈ ds, edgeB jobs j d = true) →
        dfsVisit.go jobs fuel ds vis (stack ++ [j]) = some (true, vis') →
        hasCycleIn jobs) := by
  intro fuel
  induction fuel using Nat.strong_induction_on with
  | _ fuel ih =>
    have hS : ∀ (j : String) (vis stack vis' : List String),
        List.Chain' (fun a b => edgeB jobs a b = true) (stack ++ [j]) →
        dfsVisit jobs fuel j vis stack = some (true, vis') → hasCycleIn jobs := by
      intro j vis stack vis' hchain hrun
      cases fuel with
      | zero => simp [dfsVisit] at hrun
      | succ f =>
        by_cases hs : j ∈ stack
        · obtain ⟨s₁, s₂, hsplit⟩ := List.append_of_mem hs
          refine ⟨j, s₂, ?_⟩
          rw [hsplit] at hchain
          have h2 : (s₁ ++ j :: s₂) ++ [j] = s₁ ++ (j :: (s₂ ++ [j])) := by simp
          rw [h2] at hchain
          have h3 : List.Chain' (fun a b => edgeB jobs a b = true) (j :: (s₂ ++ [j])) :=
            List.Chain'.right_of_append hchain
          exact h3
        · by_cases hv : j ∈ vis
          · simp [dfsVisit, hs, hv] at hrun
          · simp only [dfsVisit, hs, hv, if_false, reduceIte] at hrun
            exact (ih f (by omega)).2 (depsOf jobs j) (vis ++ [j]) stack vis' j hchain
              (fun d hd => (edgeB_iff_mem_depsOf jobs j d).mpr hd) hrun
    refine ⟨hS, ?_⟩
    intro ds
    induction ds with
    | nil =>
      intro vis stack vis' j _ _ hrun
      cases fuel <;> simp [dfsVisit.go] at hrun
    | cons d rest ihd =>
      intro vis stack vis' j hchain hds hrun
      rcases hdv : dfsVisit jobs fuel d vis (stack ++ [j]) with _ | p
      · cases fuel <;> simp_all [dfsVisit.go]
      · obtain ⟨b, v₁⟩ := p
        cases b with
        | true =>
          have hchain₂ : List.Chain' (fun a b => edgeB jobs a b = true)
              ((stack ++ [j]) ++ [d]) := by
            rw [List.chain'_append]
            refine ⟨hchain, List.chain'_singleton d, ?_⟩
            intro x hx y hy
            rw [List.getLast?_concat] at hx
            simp only [Option.mem_def, Option.some.injEq] at hx
            simp only [List.head?_cons, Option.mem_def, Option.some.injEq] at hy
            rw [← hx, ← hy]
            exact hds d (by simp)
          exact hS d vis (stack ++ [j]) v₁ hchain₂ hdv
        | false =>
          have hrun₂ : dfsVisit.go jobs fuel rest v₁ (stack ++ [j]) = some (true, vis') := by
            cases fuel <;> simp_all [dfsVisit.go]
          exact ihd v₁ stack vis' j hchain
            (fun d₂ hd₂ => hds d₂ (by simp [hd₂])) hrun₂

/-! ### DFS completeness: a cycle-free verdict yields a ranked closure -/

theorem le_foldr_max (r : String → Nat) (l : List String) (y : String) (hy : y ∈ l) :
    r y ≤ (l.map r).foldr max 0 := by
  induction l with
  | nil => simp at hy
  | cons a t ih =>
    simp only [List.map_cons, List.foldr_cons]
    rcases List.mem_cons.mp hy with hy | hy
    · rw [hy]; exact le_max_left _ _
    · exact le_trans (ih hy) (le_max_right _ _)

theorem dfs_false_inv (jobs : List (String × Job)) :
    ∀ fuel : Nat,
      (∀ (j : String) (vis stack vis' : List String),
        dfsVisit jobs fuel j vis stack = some (false, vis') →
        visClosed jobs vis stack →
        visClosed jobs vis' stack ∧ (∀ x ∈ vis, x ∈ vis') ∧ j ∈ vis' ∧ j ∉ stack) ∧
      (∀ (ds vis stack vis' : List String),
        dfsVisit.go jobs fuel ds vis stack = some (false, vis') →
        visClosed jobs vis stack →
        visClosed jobs vis' stack ∧ (∀ x ∈ vis, x ∈ vis') ∧
          (∀ d ∈ ds, d ∈ vis' ∧ d ∉ stack)) := by
  intro fuel
  induction fuel using Nat.strong_induction_on with
  | _ fuel ih =>
    have hF : ∀ (j : String) (vis stack vis' : List String),
        dfsVisit jobs fuel j vis stack = some (false, vis') →
        visClosed jobs vis stack →
        visClosed jobs vis' stack ∧ (∀ x ∈ vis, x ∈ vis') ∧ j ∈ vis' ∧ j ∉ stack := by
      intro j vis stack vis' hrun hvc
      cases fuel with
      | zero => simp [dfsVisit] at hrun
      | succ f =>
        by_cases hs : j ∈ stack
        · simp [dfsVisit, hs] at hrun
        · by_cases hv : j ∈ vis
          · have hvv : vis' = vis := by
              simp [dfsVisit, hs, hv] at hrun
              exact hrun.symm
            subst hvv
            exact ⟨hvc, fun x hx => hx, hv, hs⟩
          · simp only [dfsVisit, hs, hv, if_false, reduceIte] at hrun
            have hvc₂ : visClosed jobs (vis ++ [j]) (stack ++ [j]) := by
              obtain ⟨r, hr⟩ := hvc
              refine ⟨r, ?_⟩
              intro x hx hxs y hxy
              rcases List.mem_append.mp hx with hx | hx
              · have hxs₂ : x ∉ stack := fun hc => hxs (List.mem_append_left _ hc)
                obtain ⟨h1, h2, h3⟩ := hr x hx hxs₂ y hxy
                refine ⟨List.mem_append_left _ h1, ?_, h3⟩
                intro hc
                rcases List.mem_append.mp hc with hc | hc
                · exact h2 hc
                · rw [List.mem_singleton.mp hc] at h1
                  exact hv h1
              · rw [List.mem_singleton.mp hx] at hxs
                exact absurd (List.mem_append_right _ (by simp)) hxs
            obtain ⟨hvc₃, hmono, hdeps⟩ := (ih f (by omega)).2 (depsOf jobs j)
              (vis ++ [j]) (stack ++ [j]) vis' hrun hvc₂
            refine ⟨?_, fun x hx => hmono x (List.mem_append_left _ hx),
              hmono j (by simp), hs⟩
            obtain ⟨r, hr⟩ := hvc₃
            refine ⟨fun x => if x = j then ((depsOf jobs j).map r).foldr max 0 + 1
              else r x, ?_⟩
            intro x hx hxs y hxy
            by_cases hxj : x = j
            · subst hxj
              have hy : y ∈ depsOf jobs x := (edgeB_iff_mem_depsOf jobs x y).mp hxy
              obtain ⟨hy1, hy2⟩ := hdeps y hy
              have hyx : y ≠ x := fun hc => hy2 (hc ▸ List.mem_append_right _ (by simp))
              have hys : y ∉ stack := fun hc => hy2 (List.mem_append_left _ hc)
              refine ⟨hy1, hys, ?_⟩
              simp only [hyx, if_false, if_pos rfl, reduceIte]
              exact Nat.lt_succ_of_le (le_foldr_max r (depsOf jobs x) y hy)
            · have hxs₂ : x ∉ stack ++ [j] := by
                intro hc
                rcases List.mem_append.mp hc with hc | hc
                · exact hxs hc
                · exact hxj (List.mem_singleton.mp hc)
              obtain ⟨h1, h2, h3⟩ := hr x hx hxs₂ y hxy
              have hyj : y ≠ j := fun hc => h2 (hc ▸ List.mem_append_right _ (by simp))
              have hys : y ∉ stack := fun hc => h2 (List.mem_append_left _ hc)
              refine ⟨h1, hys, ?_⟩
              simp only [hyj, hxj, if_false, reduceIte]
              exact h3
    refine ⟨hF, ?_⟩
    intro ds
    induction ds with
    | nil =>
      intro vis stack vis' hrun hvc
      have hvv : vis' = vis := by
        cases fuel <;> simp [dfsVisit.go] at hrun <;> exact hrun.symm
      subst hvv
      exact ⟨hvc, fun x hx => hx, by simp⟩
    | cons d rest ihd =>
      intro vis stack vis' hrun hvc
      rcases hdv : dfsVisit jobs fuel d vis stack with _ | p
      · cases fuel <;> simp_all [dfsVisit.go]
      · obtain ⟨b, v₁⟩ := p
        cases b with
        | true => cases fuel <;> simp_all [dfsVisit.go]
        | false =>
          have hrun₂ : dfsVisit.go jobs fuel rest v₁ stack = some (false, vis') := by
            cases fuel <;> simp_all [dfsVisit.go]
          obtain ⟨hvc₁, hmono₁, hd₁, hds₁⟩ := hF d vis stack v₁ hdv hvc
          obtain ⟨hvc₂, hmono₂, hrest⟩ := ihd v₁ stack vis' hrun₂ hvc₁
          refine ⟨hvc₂, fun x hx => hmono₂ x (hmono₁ x hx), ?_⟩
          intro d₂ hd₂
          rcases List.mem_cons.mp hd₂ with hd₂ | hd₂
          · rw [hd₂]
            exact ⟨hmono₂ d hd₁, hds₁⟩
          · exact hrest d₂ hd₂

/-! ### detectCircularDependencies reports a cycle exactly when one exists -/

theorem detectLoop_sound (jobs : List (String × Job)) :
    ∀ (roots vis : List String) (n : String),
      detectLoop jobs roots vis = some n → hasCycleIn jobs := by
  intro roots
  induction roots with
  | nil => intro vis n h; simp [detectLoop] at h
  | cons r rs ih =>
    intro vis n h
    rcases hdv : dfsVisit jobs (dfsFuel jobs) r vis [] with _ | p
    · simp [detectLoop, hdv] at h
    · obtain ⟨b, v⟩ := p
      cases b with
      | true =>
        exact (dfs_sound jobs (dfsFuel jobs)).1 r vis [] v
          (by simpa using List.chain'_singleton r) hdv
      | false =>
        simp only [detectLoop, hdv] at h
        exact ih v n h

theorem detectLoop_none (jobs : List (String × Job)) :
    ∀ (roots vis : List String), (∀ rt ∈ roots, rt ∈ univNames jobs) →
      visClosed jobs vis [] →
      detectLoop jobs roots vis = none →
      ∃ visf, visClosed jobs visf [] ∧ (∀ x ∈ vis, x ∈ visf) ∧
        ∀ rt ∈ roots, rt ∈ visf := by
  intro roots
  induction roots with
  | nil => intro vis _ hvc _; exact ⟨vis, hvc, fun x hx => hx, by simp⟩
  | cons r rs ih =>
    intro vis hsub hvc hrun
    have hm : (univNames jobs).countP (fun x => !(decide (x ∈ vis))) < dfsFuel jobs := by
      unfold dfsFuel
      have := List.countP_le_length (l := univNames jobs)
        (p := fun x => !(decide (x ∈ vis)))
      omega
    obtain ⟨b, v, hdv, hmono, _⟩ := (dfs_total jobs (dfsFuel jobs)).1 r vis []
      (hsub r (by simp)) hm
    cases b with
    | true => simp [detectLoop, hdv] at hrun
    | false =>
      simp only [detectLoop, hdv] at hrun
      obtain ⟨hvc₂, hmono₂, hr₂, _⟩ :=
        (dfs_false_inv jobs (dfsFuel jobs)).1 r vis [] v hdv hvc
      obtain ⟨visf, hvcf, hmonof, hrootsf⟩ :=
        ih v (fun rt hrt => hsub rt (by simp [hrt])) hvc₂ hrun
      refine ⟨visf, hvcf, fun x hx => hmonof x (hmono₂ x hx), ?_⟩
      intro rt hrt
      rcases List.mem_cons.mp hrt with hrt | hrt
      · rw [hrt]; exact hmonof r hr₂
      · exact hrootsf rt hrt

theorem rank_chain_vis (jobs : List (String × Job)) (visf : List String)
    (r : String → Nat)
    (hr : ∀ x ∈ visf, ∀ y, edgeB jobs x y = true → y ∈ visf ∧ r y < r x) :
    ∀ (ys : List String) (x : String), x ∈ visf →
      List.Chain (fun a b => edgeB jobs a b = true) x ys →
      ∀ z, ys.getLast? = some z → z ∈ visf ∧ r z < r x := by
  intro ys
  induction ys with
  | nil => intro x _ _ z hz; simp at hz
  | cons y t ih =>
    intro x hx hchain z hz
    rcases List.chain_cons.mp hchain with ⟨hxy, hrest⟩
    obtain ⟨hy, hstep⟩ := hr x hx y hxy
    cases t with
    | nil =>
      simp only [List.getLast?_singleton, Option.some.injEq] at hz
      rw [hz] at hstep hy
      exact ⟨hy, hstep⟩
    | cons y₂ t₂ =>
      rw [List.getLast?_cons_cons] at hz
      obtain ⟨hz₁, hz₂⟩ := ih y hy hrest z hz
      exact ⟨hz₁, lt_trans hz₂ hstep⟩

theorem no_cycle_of_visClosed (jobs : List (String × Job)) (visf : List String)
    (hvc : visClosed jobs visf []) (hkeys : ∀ k ∈ mapKeys jobs, k ∈ visf) :
    ¬ hasCycleIn jobs := by
  rintro ⟨x, l, hchain⟩
  obtain ⟨r, hr₀⟩ := hvc
  have hr : ∀ a ∈ visf, ∀ y, edgeB jobs a y = true → y ∈ visf ∧ r y < r a := by
    intro a ha y hay
    obtain ⟨h1, _, h3⟩ := hr₀ a ha (List.not_mem_nil a) y hay
    exact ⟨h1, h3⟩
  have hxedge : ∃ y, edgeB jobs x y = true := by
    cases hl : l with
    | nil =>
      rw [hl] at hchain
      simp only [List.nil_append] at hchain
      exact ⟨x, (List.chain_cons.mp hchain).1⟩
    | cons y t =>
      rw [hl] at hchain
      simp only [List.cons_append] at hchain
      exact ⟨y, (List.chain_cons.mp hchain).1⟩
  have hxkey : x ∈ mapKeys jobs := by
    obtain ⟨y, hy⟩ := hxedge
    unfold edgeB at hy
    rcases hg : mapGet jobs x with _ | jb
    · rw [hg] at hy; simp at hy
    · exact (mapGet_isSome_iff jobs x).mp (by simp [hg])
  have hlast : (l ++ [x]).getLast? = some x := List.getLast?_concat l
  obtain ⟨_, hlt⟩ := rank_chain_vis jobs visf r hr (l ++ [x]) x (hkeys x hxkey)
    hchain x hlast
  omega

/-- The full-graph cycle check fires exactly when the registered dependency
graph has a directed cycle. -/
theorem detectCircularDependencies_iff (jobs : List (String × Job)) :
    (∃ n, detectCircularDependencies jobs = some n) ↔ hasCycleIn jobs := by
  constructor
  · rintro ⟨n, hn⟩
    exact detectLoop_sound jobs (mapKeys jobs) [] n hn
  · intro hcyc
    rcases hd : detectCircularDependencies jobs with _ | n
    · exfalso
      obtain ⟨visf, hvc, _, hroots⟩ := detectLoop_none jobs (mapKeys jobs) []
        (fun rt hrt => List.mem_append_left _ hrt)
        ⟨fun _ => 0, fun x hx => absurd hx (List.not_mem_nil x)⟩ hd
      exact no_cycle_of_visClosed jobs visf hvc hroots hcyc
    · exact ⟨n, rfl⟩

/-! ### Claim C3 (corrected): the circular-dependency check at registration -/

/-- C3 counterexample: with a self-cycle already present in the registry
(left behind by an unvalidated or failed registration), registering a job
with an empty dependency list and validation on throws nothing — the code
returns from validateJobDependencies before the full-graph cycle check —
even though the graph after adding the job contains a directed cycle.  All
(zero) dependency names of the new job are registered, so the claim's
hypotheses hold while its conclusion fails. -/
theorem registerJob_circular_empty_deps_cex :
    (registerJob (fun _ => true) cycState exFreeJob "0 * * * *" true).2 = none ∧
      (∀ d ∈ exFreeJob.dependencies,
        d ∈ mapKeys (mapSet cycState.jobs exFreeJob.name exFreeJob)) ∧
      hasCycleIn (mapSet cycState.jobs exFreeJob.name exFreeJob) := by
  refine ⟨rfl, by simp [exFreeJob], ⟨"a", [], ?_⟩⟩
  exact List.Chain.cons (by decide) List.Chain.nil

/-- C3 amended: for a registerJob call with validation requested, a valid
cron expression and a nonempty dependency list all of whose names are
registered (in the map after the job itself is stored), the call throws
CircularDependency exactly when the dependency graph over all registered
jobs — after adding the job — contains a directed cycle, including cycles
not reachable from the new job and self-dependency 1-cycles.  (When the
dependency list is empty the cycle check is skipped entirely, see the
counterexample.) -/
theorem registerJob_circular_iff (cronValid : String → Bool) (st : SchedulerState)
    (job : Job) (expr : String) (hc : cronValid expr = true)
    (hne : job.dependencies ≠ [])
    (hdeps : ∀ d ∈ job.dependencies, d ∈ mapKeys (mapSet st.jobs job.name job)) :
    (∃ n, (registerJob cronValid st job expr true).2 = some (RegError.circular n)) ↔
      hasCycleIn (mapSet st.jobs job.name job) := by
  have hfind : job.dependencies.find?
      (fun d => !(mapGet (mapSet st.jobs job.name job) d).isSome) = none := by
    apply List.find?_eq_none.mpr
    intro d hd
    simp [(mapGet_isSome_iff _ _).mpr (hdeps d hd)]
  have hie : job.dependencies.isEmpty = false := by
    cases hd : job.dependencies with
    | nil => exact absurd hd hne
    | cons a t => rfl
  have herr : (registerJob cronValid st job expr true).2
      = validateJobDependencies (mapSet st.jobs job.name job) job := by
    simp only [registerJob, hc, Bool.not_true, Bool.false_eq_true, if_false, if_true,
      reduceIte]
    cases validateJobDependencies (mapSet st.jobs job.name job) job <;> simp
  have hval : validateJobDependencies (mapSet st.jobs job.name job) job
      = (detectCircularDependencies (mapSet st.jobs job.name job)).map
          RegError.circular := by
    unfold validateJobDependencies
    rw [hie, hfind]
    simp only [Bool.false_eq_true, if_false, reduceIte]
    cases detectCircularDependencies (mapSet st.jobs job.name job) <;> simp
  rw [herr, hval]
  rw [← detectCircularDependencies_iff]
  constructor
  · rintro ⟨n, hn⟩
    rcases hd : detectCircularDependencies (mapSet st.jobs job.name job) with _ | n₂
    · rw [hd] at hn; simp at hn
    · exact ⟨n₂, rfl⟩
  · rintro ⟨n, hn⟩
    exact ⟨n, by rw [hn]; rfl⟩

/-- Witness for registerJob_circular_iff: registering a self-dependent job
into an empty scheduler throws CircularDependency. -/
theorem registerJob_circular_iff_witness :
    (((fun (_ : String) => true) "0 * * * *" = true) ∧
      Job.dependencies exSelfJob ≠ [] ∧
      (∀ d ∈ exSelfJob.dependencies,
        d ∈ mapKeys (mapSet ({} : SchedulerState).jobs exSelfJob.name exSelfJob))) ∧
    (∃ n, (registerJob (fun _ => true) {} exSelfJob "0 * * * *" true).2
        = some (RegError.circular n)) := by
  refine ⟨⟨rfl, by decide, by decide⟩, ?_⟩
  apply (registerJob_circular_iff (fun _ => true) {} exSelfJob "0 * * * *" rfl
    (by decide) (by decide)).mpr
  exact ⟨"a", [], List.Chain.cons (by decide) List.Chain.nil⟩

end TheVoid
